import Mathlib

/-!
Package `urldecode`: a streaming decoder for form-url-encoded data.

A shallow embedding of `decoder.go` (package `urldecode`) and the properties of
its natural-language specification.

Conventions of the embedding

* A Go `byte` is its numeric value, a natural number; `'%'` is 37, `'&'` is 38,
  `'+'` is 43, `'='` is 61, `' '` is 32, `'0'..'9'` are 48..57, `'A'..'F'` are
  65..70 and `'a'..'f'` are 97..102.
* A slice `d.buffer` is the list of its `len` elements together with its `cap`.
* Mutable state is passed explicitly: a function that mutates the decoder, the
  value reader or the destination returns the new ones.
* A Go panic (index or slice bounds) is the `Except.error` result; so is running
  out of the iteration budget that the loops of the model carry.
* An `io.Reader` is a state together with a function that, for the length of the
  destination it is handed, reports the bytes it stored, its error and its next
  state.
-/

namespace urldecode

/-- The Go `error` values of the package: `io.EOF`, the error of `NextPair` made by
`errors.New("key is too long")`, and any other error of a source. -/
inductive Error where
  | EOF
  | keyTooLong
  | other (code : Nat)
  deriving DecidableEq, Repr

/-- The ways a run of the model stops without a result: a Go run-time panic, or the
iteration budget of a loop of the model used up. -/
inductive Fault where
  | indexOutOfRange
  | sliceBounds
  | outOfFuel
  deriving DecidableEq, Repr

/-- The outcome of one `Read(p)` on an `io.Reader`: the bytes stored at the front of
`p` (their number is Go's `n`), the error, and the next state of the source. -/
structure Fetch (σ : Type) where
  data : List Nat
  err : Option Error
  next : σ

/-- An `io.Reader` with states `σ`: `Read s n` is a read into a destination of
length `n` in state `s`. -/
structure Source (σ : Type) where
  Read : σ → Nat → Fetch σ

/-- The Go constant `bufferSize`. -/
def bufferSize : Nat := 1024

/-- The Go struct `Decoder`: `buffer` holds the `len(d.buffer)` bytes of the slice and
`cap` is `cap(d.buffer)`. -/
structure Decoder (σ : Type) where
  source : σ
  buffer : List Nat
  cap : Nat
  offset : Nat

/-- The Go type `scanStep`, a pointer to one of the three step functions. -/
inductive scanStep where
  | defaultStep
  | escape
  | escape1
  deriving DecidableEq, Repr

/-- The array `memory [3]byte` of a value reader. -/
structure Memory where
  m0 : Nat
  m1 : Nat
  m2 : Nat
  deriving DecidableEq, Repr

/-- The Go struct `valueReader` without its pointer to the decoder, which the
functions below take and return instead. `outputBuffer` is a slice of `memory`; it is
kept as the list of its elements, which is the same thing because every store into
`memory` is followed, in the same step function, by a new assignment of
`outputBuffer`. -/
structure valueReader where
  eof : Bool
  memory : Memory
  outputBuffer : List Nat
  step : scanStep
  flush : Bool
  deriving DecidableEq, Repr

/-- Go `NewDecoder`: an empty buffer of capacity `bufferSize`, offset zero. -/
def NewDecoder {σ : Type} (r : σ) : Decoder σ :=
  { source := r, buffer := [], cap := bufferSize, offset := 0 }

/-- Go `(*Decoder).newValueReader`: the zero value reader with `step: defaultStep`. -/
def newValueReader : valueReader :=
  { eof := false, memory := ⟨0, 0, 0⟩, outputBuffer := [], step := .defaultStep,
    flush := false }

/-- Go `(*Decoder).fill`: move the unread bytes to the front when `offset > 0`, then
read once from the source into `buffer[len:cap]` and extend the buffer by the bytes
read. The error of the source is returned with the new decoder. -/
def Decoder.fill {σ : Type} (src : Source σ) (d : Decoder σ) :
    Except Fault (Decoder σ × Option Error) :=
  -- if d.offset > 0 { n := copy(d.buffer, d.buffer[d.offset:]); d.buffer = d.buffer[:n]; d.offset = 0 }
  let moved : Except Fault (Decoder σ) :=
    if 0 < d.offset then
      if d.offset ≤ d.buffer.length then
        .ok { d with buffer := d.buffer.drop d.offset, offset := 0 }
      else .error .sliceBounds
    else .ok d
  match moved with
  | .error e => .error e
  | .ok d1 =>
    -- n, err := d.source.Read(d.buffer[len(d.buffer):cap(d.buffer)])
    if d1.buffer.length ≤ d1.cap then
      let f := src.Read d1.source (d1.cap - d1.buffer.length)
      -- d.buffer = d.buffer[0 : len(d.buffer)+n]
      if d1.buffer.length + f.data.length ≤ d1.cap then
        .ok ({ d1 with source := f.next, buffer := d1.buffer ++ f.data }, f.err)
      else .error .sliceBounds
    else .error .sliceBounds

/-- The result of `NextPair`: the key, the value reader (`none` is Go's nil), the error
(`none` is nil) and the decoder after the call. -/
structure PairResult (σ : Type) where
  key : List Nat
  value : Option valueReader
  err : Option Error
  d : Decoder σ

/-- The `for d.offset < len(d.buffer)` loop of `NextPair`. The left result is a
`return` from inside the loop, the right one the decoder when the loop ends. -/
def scanLoop {σ : Type} : Nat → Decoder σ → Except Fault (PairResult σ ⊕ Decoder σ)
  | 0, _ => .error .outOfFuel
  | fuel + 1, d =>
    if d.offset < d.buffer.length then
      match d.buffer[d.offset]? with
      | none => .error .indexOutOfRange
      | some input =>
        if input = 38 then
          .ok (.inl { key := d.buffer.take d.offset, value := some newValueReader,
                      err := none, d := d })
        else if input = 61 then
          let d1 := { d with offset := d.offset + 1 }
          .ok (.inl { key := d1.buffer.take (d1.offset - 1), value := some newValueReader,
                      err := none, d := d1 })
        else scanLoop fuel { d with offset := d.offset + 1 }
    else .ok (.inr d)

/-- Go `(*Decoder).NextPair`. -/
def Decoder.NextPair {σ : Type} (src : Source σ) (d : Decoder σ) :
    Except Fault (PairResult σ) :=
  match d.fill src with
  | .error e => .error e
  | .ok (d1, err) =>
    if d1.buffer.length = 0 then
      .ok { key := [], value := none, err := err, d := d1 }
    else
      match scanLoop (d1.buffer.length - d1.offset + 1) d1 with
      | .error e => .error e
      | .ok (.inl res) => .ok res
      | .ok (.inr d2) =>
        if d2.offset < d2.cap then
          .ok { key := d2.buffer, value := some newValueReader, err := none, d := d2 }
        else
          .ok { key := [], value := none, err := some .keyTooLong, d := d2 }

/-- The assignment `p[offset] = b`; it panics when `offset` is not an index of `p`. -/
def store (p : List Nat) (offset : Nat) (b : Nat) : Except Fault (List Nat) :=
  if offset < p.length then .ok (p.set offset b) else .error .indexOutOfRange

/-- The test `input >= '0' && input <= '9' || input >= 'a' && input <= 'f' ||
input >= 'A' && input <= 'F'` of `escape` and `escape1`. -/
def isHexDigit (input : Nat) : Bool :=
  decide (48 ≤ input ∧ input ≤ 57 ∨ 97 ≤ input ∧ input ≤ 102 ∨ 65 ≤ input ∧ input ≤ 70)

/-- The value of a hexadecimal digit as Go's `encoding/hex` reads it; `none` for a
byte that is no digit. -/
def fromHexChar (c : Nat) : Option Nat :=
  if 48 ≤ c ∧ c ≤ 57 then some (c - 48)
  else if 97 ≤ c ∧ c ≤ 102 then some (c - 97 + 10)
  else if 65 ≤ c ∧ c ≤ 70 then some (c - 65 + 10)
  else none

/-- Go `hex.Decode(p[offset:offset+1], src)` for the two bytes `h l` of `src`: the byte
`(a << 4) | b` is stored at `p[offset]`; when one of the two is no digit nothing is
stored (the error `hex.Decode` returns is dropped by the caller). -/
def hexDecode (p : List Nat) (offset : Nat) (h l : Nat) : Except Fault (List Nat) :=
  if offset < p.length then
    match fromHexChar h, fromHexChar l with
    | some a, some b => .ok (p.set offset ((a <<< 4) ||| b))
    | _, _ => .ok p
  else .error .sliceBounds

/-- Go `defaultStep`: the state in which bytes are copied (and `+` becomes a space). -/
def defaultStep (r : valueReader) (input : Nat) (p : List Nat) (offset : Nat) :
    Except Fault (valueReader × List Nat × Nat) :=
  if input = 37 then
    let mem := { r.memory with m0 := 37 }
    .ok ({ r with step := .escape, flush := false, memory := mem,
                  outputBuffer := [mem.m0] }, p, offset)
  else
    match store p offset (if input = 43 then 32 else input) with
    | .error e => .error e
    | .ok p1 => .ok (r, p1, offset + 1)

/-- Go `escape`: the state after reading `%`. -/
def escape (r : valueReader) (input : Nat) (p : List Nat) (offset : Nat) :
    Except Fault (valueReader × List Nat × Nat) :=
  let mem := { r.memory with m1 := input }
  let r1 := { r with memory := mem, outputBuffer := [mem.m0, mem.m1] }
  if isHexDigit input then
    .ok ({ r1 with step := .escape1 }, p, offset)
  else
    .ok ({ r1 with step := .defaultStep, flush := true }, p, offset)

/-- Go `escape1`: the state after reading `%x` where `x` is a hex digit. -/
def escape1 (r : valueReader) (input : Nat) (p : List Nat) (offset : Nat) :
    Except Fault (valueReader × List Nat × Nat) :=
  let mem := { r.memory with m2 := input }
  let r1 := { r with memory := mem, outputBuffer := [mem.m0, mem.m1, mem.m2],
                     step := .defaultStep, flush := true }
  if isHexDigit input then
    match hexDecode p offset mem.m1 mem.m2 with
    | .error e => .error e
    | .ok p1 => .ok ({ r1 with outputBuffer := [] }, p1, offset + 1)
  else
    .ok (r1, p, offset)

/-- The call `r.step(r, input, p, offset)` through the function pointer. -/
def scanStep.call (s : scanStep) (r : valueReader) (input : Nat) (p : List Nat)
    (offset : Nat) : Except Fault (valueReader × List Nat × Nat) :=
  match s with
  | .defaultStep => urldecode.defaultStep r input p offset
  | .escape => urldecode.escape r input p offset
  | .escape1 => urldecode.escape1 r input p offset

/-- The result of `valueReader.Read(p)`: the count `n`, the error, the destination `p`
after the call, and the decoder and the reader after the call. -/
structure ReadResult (σ : Type) where
  n : Nat
  err : Option Error
  p : List Nat
  d : Decoder σ
  r : valueReader

/-- What one turn of the loop of `Read` does: go on with the next turn (`continue`, or
the end of the body) or `return`. -/
inductive Turn (σ : Type) where
  | next (d : Decoder σ) (r : valueReader) (p : List Nat) (offset : Nat)
  | done (res : ReadResult σ)

/-- The body of the loop `for offset < len(p)` of `valueReader.Read`. -/
def readBody {σ : Type} (src : Source σ) (d : Decoder σ) (r : valueReader)
    (p : List Nat) (offset : Nat) : Except Fault (Turn σ) :=
  -- flush the output buffer if required
  if (r.flush = true ∨ r.eof = true) ∧ 0 < r.outputBuffer.length then
    match r.outputBuffer with
    | [] => .error .indexOutOfRange
    | b :: rest =>
      match store p offset b with
      | .error e => .error e
      | .ok p1 => .ok (.next d { r with outputBuffer := rest } p1 (offset + 1))
  -- try to read more data from the source if necessary
  else if r.eof = false ∧ d.offset = d.buffer.length then
    match d.fill src with
    | .error e => .error e
    | .ok (d1, _) => .ok (.next d1 { r with eof := decide (d1.buffer.length = 0) } p offset)
  else if r.eof = true then
    .ok (.done { n := offset, err := some .EOF, p := p, d := d, r := r })
  else
    -- we are not at EOF and ready to read the next byte
    match d.buffer[d.offset]? with
    | none => .error .indexOutOfRange
    | some input =>
      let d1 := { d with offset := d.offset + 1 }
      if input = 38 then
        .ok (.next d1 { r with eof := true } p offset)
      else
        match r.step.call r input p offset with
        | .error e => .error e
        | .ok (r1, p1, offset1) => .ok (.next d1 r1 p1 offset1)

/-- The loop `for offset < len(p)` of `valueReader.Read` with an iteration budget. -/
def readLoop {σ : Type} (src : Source σ) :
    Nat → Decoder σ → valueReader → List Nat → Nat → Except Fault (ReadResult σ)
  | 0, _, _, _, _ => .error .outOfFuel
  | fuel + 1, d, r, p, offset =>
    if offset < p.length then
      match readBody src d r p offset with
      | .error e => .error e
      | .ok (.done res) => .ok res
      | .ok (.next d1 r1 p1 offset1) => readLoop src fuel d1 r1 p1 offset1
    else .ok { n := offset, err := none, p := p, d := d, r := r }

/-- Go `(*valueReader).Read`, on the decoder `d` the reader points to. The loop gets a
budget of `9 * len(p) + 9` turns, which is above the bound `turnBound` on the turns it
makes; a larger budget gives the same result (`readLoop_fuel` below). -/
def valueReader.Read {σ : Type} (src : Source σ) (d : Decoder σ) (r : valueReader)
    (p : List Nat) : Except Fault (ReadResult σ) :=
  readLoop src (9 * p.length + 9) d r p 0

/-! ## Sources and callers used by the tests -/

/-- Go `bytes.Buffer` (and `bytes.NewBufferString`) as a source; the state is the list
of unread bytes. `Read` of an empty buffer returns `0, io.EOF`, or `0, nil` when the
destination is empty; otherwise it copies as much as fits and returns a nil error. -/
def bytesBuffer : Source (List Nat) where
  Read := fun s n =>
    if s = [] then { data := [], err := if n = 0 then none else some .EOF, next := [] }
    else { data := s.take n, err := none, next := s.drop n }

/-- A source that hands out a given list of fetches one after the other (a fetch that
does not fit the destination is handed out in parts), then reports `io.EOF`. -/
def chunked : Source (List (List Nat)) where
  Read := fun s n =>
    match s with
    | [] => { data := [], err := some .EOF, next := [] }
    | c :: cs =>
      if c.length ≤ n then { data := c, err := none, next := cs }
      else { data := c.take n, err := none, next := c.drop n :: cs }

/-- A source that plays back a given list of fetch results, bytes and error, one
result per `Read` (bytes that do not fit the destination are dropped), and reports
`io.EOF` without bytes when the list is used up. -/
def scripted : Source (List (List Nat × Option Error)) where
  Read := fun s n =>
    match s with
    | [] => { data := [], err := some .EOF, next := [] }
    | f :: rest => { data := f.1.take n, err := f.2, next := rest }

/-- What draining a value reader gave: the bytes read, whether `io.EOF` was seen, and
the decoder and the reader afterwards. -/
structure Drained (σ : Type) where
  data : List Nat
  eof : Bool
  d : Decoder σ
  r : valueReader

/-- Call `Read` with fresh destinations of the given sizes, one call per size, until a
call returns `io.EOF` (as `ioutil.ReadAll` and the test helper `readAllBytewise` do),
and collect the bytes `p[:n]` of each call. -/
def drain {σ : Type} (src : Source σ) :
    List Nat → Decoder σ → valueReader → Except Fault (Drained σ)
  | [], d, r => .ok { data := [], eof := false, d := d, r := r }
  | size :: sizes, d, r =>
    match valueReader.Read src d r (List.replicate size 0) with
    | .error e => .error e
    | .ok res =>
      if res.err = some .EOF then
        .ok { data := res.p.take res.n, eof := true, d := res.d, r := res.r }
      else
        match drain src sizes res.d res.r with
        | .error e => .error e
        | .ok rest => .ok { rest with data := res.p.take res.n ++ rest.data }

/-- What reading pairs gave: the pairs read, the error that ended the reading (`none`
when the asked number of pairs was read) and the decoder afterwards. -/
structure Session (σ : Type) where
  pairs : List (List Nat × List Nat)
  err : Option Error
  d : Decoder σ

/-- Read up to `count` pairs as the test helper `requireKeyValue` does: call
`NextPair`, and on a nil error drain the value reader with destinations of the given
sizes before the next call. The reading ends at the first call that returns an error,
or no value reader, or whose value was not drained to `io.EOF`. -/
def readPairs {σ : Type} (src : Source σ) (sizes : List Nat) :
    Nat → Decoder σ → Except Fault (Session σ)
  | 0, d => .ok { pairs := [], err := none, d := d }
  | count + 1, d =>
    match d.NextPair src with
    | .error e => .error e
    | .ok res =>
      match res.err, res.value with
      | none, some r =>
        match drain src sizes res.d r with
        | .error e => .error e
        | .ok v =>
          if v.eof = true then
            match readPairs src sizes count v.d with
            | .error e => .error e
            | .ok rest => .ok { rest with pairs := (res.key, v.data) :: rest.pairs }
          else .ok { pairs := [(res.key, v.data)], err := none, d := v.d }
      | err, _ => .ok { pairs := [], err := err, d := res.d }

/-! ## The decoding the specification describes -/

/-- The three states of the escape decoder of the specification; `EscapeDigit1` carries
the hex digit held in the escape memory. -/
inductive DecodeState where
  | Verbatim
  | EscapeSeen
  | EscapeDigit1 (digit : Nat)
  deriving DecidableEq, Repr

/-- A hex digit in the sense of the specification: one of `0-9`, `a-f`, `A-F`. -/
def hexDigit (b : Nat) : Prop :=
  (48 ≤ b ∧ b ≤ 57) ∨ (65 ≤ b ∧ b ≤ 70) ∨ (97 ≤ b ∧ b ≤ 102)

instance (b : Nat) : Decidable (hexDigit b) := by
  unfold hexDigit
  exact inferInstance

/-- The numeric value of a hex digit; zero for any other byte. -/
def hexval (b : Nat) : Nat :=
  if 48 ≤ b ∧ b ≤ 57 then b - 48
  else if 65 ≤ b ∧ b ≤ 70 then b - 55
  else if 97 ≤ b ∧ b ≤ 102 then b - 87
  else 0

/-- The transition table of the specification, run over the raw bytes of one value (a
list without `&`) from a given state: the bytes emitted, with the bytes held in the
escape memory emitted literally when the value ends. -/
def decodeFrom : DecodeState → List Nat → List Nat
  | .Verbatim, [] => []
  | .EscapeSeen, [] => [37]
  | .EscapeDigit1 h, [] => [37, h]
  | .Verbatim, b :: bs =>
    if b = 37 then decodeFrom .EscapeSeen bs
    else if b = 43 then 32 :: decodeFrom .Verbatim bs
    else b :: decodeFrom .Verbatim bs
  | .EscapeSeen, b :: bs =>
    if hexDigit b then decodeFrom (.EscapeDigit1 b) bs
    else 37 :: b :: decodeFrom .Verbatim bs
  | .EscapeDigit1 h, b :: bs =>
    if hexDigit b then (16 * hexval h + hexval b) :: decodeFrom .Verbatim bs
    else 37 :: h :: b :: decodeFrom .Verbatim bs

/-- The state of the transition table of the specification after the given bytes. -/
def stateAfter : DecodeState → List Nat → DecodeState
  | s, [] => s
  | .Verbatim, b :: bs =>
    if b = 37 then stateAfter .EscapeSeen bs else stateAfter .Verbatim bs
  | .EscapeSeen, b :: bs =>
    if hexDigit b then stateAfter (.EscapeDigit1 b) bs else stateAfter .Verbatim bs
  | .EscapeDigit1 _, _ :: bs => stateAfter .Verbatim bs

/-- The decoding of a raw value according to the specification. -/
def urlDecode (v : List Nat) : List Nat := decodeFrom .Verbatim v

/-- The lower-case hex digit of a number below 16. -/
def lowerHex (n : Nat) : Nat := if n < 10 then 48 + n else 87 + n

/-- The encoding `enc` of the round trip: every byte becomes `%` and its two lower-case
hex digits. -/
def percentEncode : List Nat → List Nat
  | [] => []
  | b :: bs => 37 :: lowerHex (b / 16) :: lowerHex (b % 16) :: percentEncode bs

/-- The input `k1=v1&k2=v2&...&kn=vn`. -/
def encodePairs : List (List Nat × List Nat) → List Nat
  | [] => []
  | [kv] => kv.1 ++ 61 :: kv.2
  | kv :: rest => kv.1 ++ 61 :: kv.2 ++ 38 :: encodePairs rest

/-- The input `k1&k2&...&kn`. -/
def encodeKeys : List (List Nat) → List Nat
  | [] => []
  | [k] => k
  | k :: rest => k ++ 38 :: encodeKeys rest

/-- A byte that can be part of a key: any byte but `=` and `&`. -/
def keyByte (b : Nat) : Bool := decide (b ≠ 61 ∧ b ≠ 38)

/-! ## Notions used in the proofs -/

/-- The bytes of the window that are not consumed yet. -/
def Decoder.unread {σ : Type} (d : Decoder σ) : List Nat := d.buffer.drop d.offset

/-- The window invariant: `offset ≤ len(buffer) ≤ cap(buffer)`, and the capacity is
`bufferSize`. -/
def Decoder.WF {σ : Type} (d : Decoder σ) : Prop :=
  d.offset ≤ d.buffer.length ∧ d.buffer.length ≤ d.cap ∧ d.cap = bufferSize

/-- The number of turns of the loop of `Read` a step function can be away from its next
output. -/
def scanStep.rank : scanStep → Nat
  | .defaultStep => 3
  | .escape => 2
  | .escape1 => 1

/-- A bound on the number of turns of the loop of `Read` before the next byte is
stored or the loop returns. -/
def turnRank {σ : Type} (d : Decoder σ) (r : valueReader) : Nat :=
  if (r.flush = true ∨ r.eof = true) ∧ 0 < r.outputBuffer.length then 0
  else if r.eof = true then 0
  else 2 * r.step.rank + (if d.offset = d.buffer.length then 1 else 0) + 1

/-- A bound on the number of turns the loop of `Read` makes from a given point. -/
def turnBound {σ : Type} (d : Decoder σ) (r : valueReader) (p : List Nat)
    (offset : Nat) : Nat :=
  9 * (p.length - offset) + turnRank d r

/-- The next byte of a value, if any: one `Read` into a destination of one byte.
`some b` is the byte read, `none` is `io.EOF`. -/
def nextByte {σ : Type} (src : Source σ) (d : Decoder σ) (r : valueReader) :
    Except Fault (Option Nat × Decoder σ × valueReader) :=
  match valueReader.Read src d r [0] with
  | .error e => .error e
  | .ok res =>
    if res.err = none then .ok (res.p.head?, res.d, res.r) else .ok (none, res.d, res.r)

/-- Up to `count` bytes of a value, read one at a time until `io.EOF`. -/
def pull {σ : Type} (src : Source σ) :
    Nat → Decoder σ → valueReader → Except Fault (Drained σ)
  | 0, d, r => .ok { data := [], eof := false, d := d, r := r }
  | count + 1, d, r =>
    match nextByte src d r with
    | .error e => .error e
    | .ok (none, d1, r1) => .ok { data := [], eof := true, d := d1, r := r1 }
    | .ok (some b, d1, r1) =>
      match pull src count d1 r1 with
      | .error e => .error e
      | .ok rest => .ok { rest with data := b :: rest.data }

/-- A source that delivers a finite stream: in every state `s` that satisfies `ok`, it
holds the bytes `content s`, a read returns a first part of them that fits the
destination and is not empty unless the destination or the content is, and a read of
the empty content into a destination that is not empty reports `io.EOF`. -/
structure Delivers {σ : Type} (src : Source σ) (content : σ → List Nat)
    (ok : σ → Prop) : Prop where
  fits : ∀ s n, ok s → (src.Read s n).data.length ≤ n
  split : ∀ s n, ok s → content s = (src.Read s n).data ++ content (src.Read s n).next
  progress : ∀ s n, ok s → 0 < n → content s ≠ [] → (src.Read s n).data ≠ []
  eof : ∀ s n, ok s → 0 < n → content s = [] → (src.Read s n).err = some .EOF
  next_ok : ∀ s n, ok s → ok (src.Read s n).next

/-- The bytes a decoder has not consumed yet: those of its window and those its source
still holds. -/
def Decoder.pending {σ : Type} (content : σ → List Nat) (d : Decoder σ) : List Nat :=
  d.unread ++ content d.source

/-- The reader states that occur while a value is read: in the default state bytes
wait in the output buffer only to be flushed; after `%` the escape memory and the
output buffer hold `%`; after `%` and a hex digit they hold both. -/
def valueReader.WF (r : valueReader) : Prop :=
  match r.step with
  | .defaultStep => r.outputBuffer ≠ [] → r.flush = true
  | .escape => r.flush = false ∧ r.outputBuffer = [37] ∧ r.memory.m0 = 37
  | .escape1 =>
    r.flush = false ∧ r.outputBuffer = [37, r.memory.m1] ∧ r.memory.m0 = 37 ∧
      hexDigit r.memory.m1

/-- The bytes a reader that is not at the end of its value will still give when the
raw bytes `v` are what is left of the value. -/
def valueReader.rest (r : valueReader) (v : List Nat) : List Nat :=
  match r.step with
  | .defaultStep => r.outputBuffer ++ decodeFrom .Verbatim v
  | .escape => decodeFrom .EscapeSeen v
  | .escape1 => decodeFrom (.EscapeDigit1 r.memory.m1) v

/-- The decoder `d` and the reader `r` are at a point of a value from which the bytes
`out` are still to be read, after which the unconsumed input is `after`. -/
def Reading {σ : Type} (content : σ → List Nat) (ok : σ → Prop) (d : Decoder σ)
    (r : valueReader) (out after : List Nat) : Prop :=
  d.WF ∧ ok d.source ∧
    if r.eof = true then r.outputBuffer = out ∧ d.pending content = after
    else r.WF ∧ ∃ v : List Nat, (∀ b ∈ v, b ≠ 38) ∧ r.rest v = out ∧
      ((d.pending content = v ∧ after = []) ∨ d.pending content = v ++ 38 :: after)

/-- What one turn of the loop of `Read` does at a point of a value from which the bytes
`out` are still to be read: it stores nothing and stays at such a point, or it stores
the first byte of `out` and comes to a point from which the others are to be read, or
`out` is empty, the reader is at the end of the value and the turn returns `io.EOF`. -/
def TurnOk {σ : Type} (content : σ → List Nat) (ok : σ → Prop) (src : Source σ)
    (d : Decoder σ) (r : valueReader) (p : List Nat) (offset : Nat)
    (out after : List Nat) : Prop :=
  (∃ d1 r1, readBody src d r p offset = .ok (.next d1 r1 p offset) ∧
      Reading content ok d1 r1 out after) ∨
  (∃ b out1 d1 r1, out = b :: out1 ∧
      readBody src d r p offset = .ok (.next d1 r1 (p.set offset b) (offset + 1)) ∧
      Reading content ok d1 r1 out1 after) ∨
  (out = [] ∧ r.eof = true ∧
      readBody src d r p offset
        = .ok (.done { n := offset, err := some .EOF, p := p, d := d, r := r }))

/-! ## The window -/

/-- After `fill` the offset is zero and the window is within its capacity. -/
theorem fill_shape {σ : Type} (src : Source σ) (d d1 : Decoder σ) (e : Option Error)
    (h : d.fill src = .ok (d1, e)) :
    d1.offset = 0 ∧ d1.cap = d.cap ∧ d1.buffer.length ≤ d1.cap := by
  unfold Decoder.fill at h
  by_cases ho : 0 < d.offset
  · by_cases hl : d.offset ≤ d.buffer.length
    · simp only [ho, hl, if_true] at h
      split_ifs at h with h1 h2
      simp only [Except.ok.injEq, Prod.mk.injEq] at h
      obtain ⟨h3, -⟩ := h
      subst h3
      exact ⟨rfl, rfl, by simpa using h2⟩
    · simp [ho, hl] at h
  · have ho0 : d.offset = 0 := by omega
    simp only [ho, if_false] at h
    split_ifs at h with h1 h2
    simp only [Except.ok.injEq, Prod.mk.injEq] at h
    obtain ⟨h3, -⟩ := h
    subst h3
    exact ⟨ho0, rfl, by simpa using h2⟩

/-- What `fill` does to a decoder that satisfies the window invariant, when the source
returns no more bytes than the destination holds. -/
theorem fill_eq {σ : Type} (src : Source σ) (d : Decoder σ)
    (ho : d.offset ≤ d.buffer.length) (hc : d.buffer.length ≤ d.cap)
    (hfit : (src.Read d.source (d.cap - (d.buffer.length - d.offset))).data.length
      ≤ d.cap - (d.buffer.length - d.offset)) :
    d.fill src = .ok
      ({ source := (src.Read d.source (d.cap - (d.buffer.length - d.offset))).next,
         buffer := d.buffer.drop d.offset
           ++ (src.Read d.source (d.cap - (d.buffer.length - d.offset))).data,
         cap := d.cap, offset := 0 },
       (src.Read d.source (d.cap - (d.buffer.length - d.offset))).err) := by
  unfold Decoder.fill
  by_cases h0 : 0 < d.offset
  · have hlen : d.buffer.length - d.offset + (src.Read d.source
        (d.cap - (d.buffer.length - d.offset))).data.length ≤ d.cap := by omega
    have hle : d.buffer.length - d.offset ≤ d.cap := by omega
    simp only [h0, ho, if_true, List.length_drop, hle, hlen]
  · have hz : d.offset = 0 := by omega
    simp only [hz, Nat.sub_zero, List.drop_zero] at hfit ⊢
    have hlen : d.buffer.length + (src.Read d.source (d.cap - d.buffer.length)).data.length
        ≤ d.cap := by omega
    simp only [hc, if_true, lt_irrefl, if_false, hlen]
    cases d
    simp_all

theorem turnRank_le {σ : Type} (d : Decoder σ) (r : valueReader) : turnRank d r ≤ 8 := by
  unfold turnRank
  cases hs : r.step <;> simp only [scanStep.rank] <;> split_ifs <;> omega

theorem turnRank_eof {σ : Type} (d : Decoder σ) (r : valueReader) (h : r.eof = true) :
    turnRank d r = 0 := by
  unfold turnRank
  split_ifs <;> rfl

theorem turnRank_flush {σ : Type} (d : Decoder σ) (r : valueReader) (h : r.flush = true)
    (hob : 0 < r.outputBuffer.length) : turnRank d r = 0 := by
  unfold turnRank
  rw [if_pos ⟨Or.inl h, hob⟩]

theorem turnRank_escape {σ : Type} (d : Decoder σ) (r : valueReader)
    (h : r.step = .escape) : turnRank d r ≤ 6 := by
  unfold turnRank
  rw [h]
  simp only [scanStep.rank]
  split_ifs <;> omega

theorem turnRank_escape1 {σ : Type} (d : Decoder σ) (r : valueReader)
    (h : r.step = .escape1) : turnRank d r ≤ 4 := by
  unfold turnRank
  rw [h]
  simp only [scanStep.rank]
  split_ifs <;> omega

theorem turnRank_idle {σ : Type} (d : Decoder σ) (r : valueReader)
    (hflush : ¬ ((r.flush = true ∨ r.eof = true) ∧ 0 < r.outputBuffer.length))
    (he : r.eof = false) :
    turnRank d r = 2 * r.step.rank + (if d.offset = d.buffer.length then 1 else 0) + 1 := by
  unfold turnRank
  rw [if_neg hflush, if_neg (by simp [he])]

/-- A turn of the loop of `Read` that does not return leaves the destination its
length, moves the offset by at most one and lowers the bound on the turns left. -/
theorem readBody_next {σ : Type} (src : Source σ) (d d1 : Decoder σ) (r r1 : valueReader)
    (p p1 : List Nat) (offset offset1 : Nat) (hlt : offset < p.length)
    (h : readBody src d r p offset = .ok (.next d1 r1 p1 offset1)) :
    p1.length = p.length ∧ offset ≤ offset1 ∧ offset1 ≤ offset + 1 ∧
      turnBound d1 r1 p1 offset1 < turnBound d r p offset ∧
      (offset1 = offset → p1 = p) := by
  have hr1 := turnRank_le d1 r1
  unfold readBody at h
  unfold turnBound
  split_ifs at h with hflush hfill heof
  · -- flush
    cases hob : r.outputBuffer with
    | nil => simp [hob] at hflush
    | cons b rest =>
      simp only [hob, store, hlt, if_true, Except.ok.injEq, Turn.next.injEq] at h
      obtain ⟨-, -, hp, ho⟩ := h
      subst hp ho
      simp only [List.length_set]
      refine ⟨by simp, by omega, by omega, by omega, fun h => absurd h (by omega)⟩
  · -- fill
    split at h
    · simp at h
    · rename_i d2 e hf
      simp only [Except.ok.injEq, Turn.next.injEq] at h
      obtain ⟨hd, hr, hp, ho⟩ := h
      subst hd hr hp ho
      obtain ⟨hz, -, -⟩ := fill_shape src d d2 e hf
      refine ⟨rfl, le_refl _, by omega, ?_, fun _ => rfl⟩
      rw [turnRank_idle d r hflush hfill.1, if_pos hfill.2]
      by_cases hb : d2.buffer.length = 0
      · rw [turnRank_eof _ _ (by simp [hb])]
        omega
      · have hne : ¬ (d2.offset = d2.buffer.length) := by omega
        by_cases hfl : (r.flush = true ∨ decide (d2.buffer.length = 0) = true) ∧
            0 < r.outputBuffer.length
        · have : turnRank d2 { r with eof := decide (d2.buffer.length = 0) } = 0 := by
            unfold turnRank
            rw [if_pos hfl]
          omega
        · rw [turnRank_idle _ _ hfl (by simp [hb]), if_neg hne]
          dsimp only
          omega
  · simp at h
  · -- consume a byte
    have he : r.eof = false := by simpa using heof
    have hne : d.offset ≠ d.buffer.length := fun hx => hfill ⟨he, hx⟩
    rw [turnRank_idle d r hflush he, if_neg hne]
    split at h
    · simp at h
    · rename_i input hin
      by_cases h38 : input = 38
      · simp only [h38, if_true, Except.ok.injEq, Turn.next.injEq] at h
        obtain ⟨-, hr, hp, ho⟩ := h
        subst hr hp ho
        refine ⟨rfl, le_refl _, by omega, ?_, fun _ => rfl⟩
        rw [turnRank_eof _ _ rfl]
        omega
      · simp only [h38, if_false] at h
        split at h
        · simp at h
        · rename_i r2 p2 o2 hstep
          simp only [Except.ok.injEq, Turn.next.injEq] at h
          obtain ⟨hd, hr, hp, ho⟩ := h
          subst hr hp ho
          cases hs : r.step with
          | defaultStep =>
            simp only [hs, scanStep.call, defaultStep] at hstep
            by_cases h37 : input = 37
            · simp only [h37, if_true, Except.ok.injEq, Prod.mk.injEq] at hstep
              obtain ⟨hr, hp, ho⟩ := hstep
              subst hp ho
              refine ⟨rfl, le_refl _, by omega, ?_, fun _ => rfl⟩
              have := turnRank_escape d1 r2 (by rw [← hr])
              simp only [scanStep.rank]
              omega
            · simp only [h37, if_false, store, hlt, if_true, Except.ok.injEq,
                Prod.mk.injEq] at hstep
              obtain ⟨hr, hp, ho⟩ := hstep
              subst hr hp ho
              simp only [List.length_set]
              refine ⟨by simp, by omega, by omega, by omega, fun h => absurd h (by omega)⟩
          | escape =>
            simp only [hs, scanStep.call, escape] at hstep
            by_cases hx : isHexDigit input = true
            · simp only [hx, if_true, Except.ok.injEq, Prod.mk.injEq] at hstep
              obtain ⟨hr, hp, ho⟩ := hstep
              subst hp ho
              refine ⟨rfl, le_refl _, by omega, ?_, fun _ => rfl⟩
              simp only [scanStep.rank]
              have := turnRank_escape1 d1 r2 (by rw [← hr])
              omega
            · simp only [hx, Bool.false_eq_true, if_false, Except.ok.injEq, Prod.mk.injEq] at hstep
              obtain ⟨hr, hp, ho⟩ := hstep
              subst hp ho
              refine ⟨rfl, le_refl _, by omega, ?_, fun _ => rfl⟩
              simp only [scanStep.rank]
              have := turnRank_flush d1 r2 (by rw [← hr]) (by rw [← hr]; simp)
              omega
          | escape1 =>
            simp only [hs, scanStep.call, escape1] at hstep
            by_cases hx : isHexDigit input = true
            · simp only [hx, if_true, hexDecode, hlt] at hstep
              split at hstep
              · simp at hstep
              · rename_i p3 hdec
                simp only [Except.ok.injEq, Prod.mk.injEq] at hstep
                obtain ⟨hr, hp, ho⟩ := hstep
                subst hp ho
                have hlen : p3.length = p.length := by
                  split at hdec
                  · simp only [Except.ok.injEq] at hdec
                    subst hdec
                    simp
                  · simp only [Except.ok.injEq] at hdec
                    subst hdec
                    rfl
                rw [hlen]
                refine ⟨by simp, by omega, by omega, by omega, fun h => absurd h (by omega)⟩
            · simp only [hx, Bool.false_eq_true, if_false, Except.ok.injEq, Prod.mk.injEq] at hstep
              obtain ⟨hr, hp, ho⟩ := hstep
              subst hp ho
              refine ⟨rfl, le_refl _, by omega, ?_, fun _ => rfl⟩
              simp only [scanStep.rank]
              have := turnRank_flush d1 r2 (by rw [← hr]) (by rw [← hr]; simp)
              omega

/-- The only `return` inside the loop of `Read` is `return offset, io.EOF`, and it
changes nothing. -/
theorem readBody_done {σ : Type} (src : Source σ) (d : Decoder σ) (r : valueReader)
    (p : List Nat) (offset : Nat) (res : ReadResult σ)
    (h : readBody src d r p offset = .ok (.done res)) :
    res = { n := offset, err := some .EOF, p := p, d := d, r := r } ∧ r.eof = true := by
  unfold readBody at h
  split_ifs at h with hflush hfill heof
  · split at h
    · simp at h
    · split at h <;> simp at h
  · split at h <;> simp at h
  · simp only [Except.ok.injEq, Turn.done.injEq] at h
    exact ⟨h.symm, heof⟩
  · split at h
    · simp at h
    · split_ifs at h
      · simp at h
      · split at h <;> simp at h

/-- More budget than the bound on the turns changes nothing. -/
theorem readLoop_succ {σ : Type} (src : Source σ) (f : Nat) :
    ∀ (d : Decoder σ) (r : valueReader) (p : List Nat) (offset : Nat),
      turnBound d r p offset < f →
      readLoop src (f + 1) d r p offset = readLoop src f d r p offset := by
  induction f with
  | zero => intro d r p offset h; omega
  | succ f ih =>
    intro d r p offset h
    rw [readLoop, readLoop]
    by_cases hlt : offset < p.length
    · simp only [hlt, if_true]
      cases hb : readBody src d r p offset with
      | error e => rfl
      | ok t =>
        cases t with
        | done res => rfl
        | next d1 r1 p1 offset1 =>
          simp only []
          have := readBody_next src d d1 r r1 p p1 offset offset1 hlt hb
          exact ih d1 r1 p1 offset1 (by omega)
    · simp only [hlt, if_false]

theorem readLoop_fuel {σ : Type} (src : Source σ) (d : Decoder σ) (r : valueReader)
    (p : List Nat) (offset : Nat) (f g : Nat) (hf : turnBound d r p offset < f)
    (hg : turnBound d r p offset < g) :
    readLoop src f d r p offset = readLoop src g d r p offset := by
  have key : ∀ k, readLoop src (turnBound d r p offset + 1 + k) d r p offset
      = readLoop src (turnBound d r p offset + 1) d r p offset := by
    intro k
    induction k with
    | zero => rfl
    | succ k ih =>
      rw [← ih, ← Nat.add_assoc]
      exact readLoop_succ src _ d r p offset (by omega)
  have h1 := key (f - (turnBound d r p offset + 1))
  have h2 := key (g - (turnBound d r p offset + 1))
  rw [show turnBound d r p offset + 1 + (f - (turnBound d r p offset + 1)) = f by omega] at h1
  rw [show turnBound d r p offset + 1 + (g - (turnBound d r p offset + 1)) = g by omega] at h2
  rw [h1, h2]

/-- A turn of the loop of `Read` looks at the destination only at `p[offset]`: it is the
turn on the one-byte destination `[p[offset]]`, moved to `offset`. -/
theorem readBody_local {σ : Type} (src : Source σ) (d : Decoder σ) (r : valueReader)
    (p : List Nat) (offset : Nat) (x : Nat) (hx : p[offset]? = some x) :
    readBody src d r p offset =
      match readBody src d r [x] 0 with
      | .error e => .error e
      | .ok (.done res) => .ok (.done { res with n := offset, p := p })
      | .ok (.next d1 r1 q j) =>
        .ok (.next d1 r1 (if j = 0 then p else p.set offset (q.headD 0)) (offset + j)) := by
  have hlt : offset < p.length := by
    rcases Nat.lt_or_ge offset p.length with h | h
    · exact h
    · rw [List.getElem?_eq_none h] at hx
      simp at hx
  have hself : p.set offset x = p := by
    apply List.ext_getElem?
    intro i
    by_cases hi : offset = i
    · subst hi
      simp [hx, hlt]
    · simp [List.getElem?_set_ne hi]
  unfold readBody
  split_ifs with hflush hfill heof
  · cases hob : r.outputBuffer with
    | nil => simp [hob] at hflush
    | cons b rest => simp [store, hlt]
  · cases hf : d.fill src with
    | error e => rfl
    | ok v => rfl
  · rfl
  · cases hin : d.buffer[d.offset]? with
    | none => rfl
    | some input =>
      simp only []
      by_cases h38 : input = 38
      · simp [h38]
      · simp only [h38, if_false]
        cases hs : r.step with
        | defaultStep =>
          simp only [scanStep.call, defaultStep]
          by_cases h37 : input = 37
          · simp [h37]
          · simp [h37, store, hlt]
        | escape =>
          simp only [scanStep.call, escape]
          by_cases hh : isHexDigit input = true
          · simp [hh]
          · simp [hh]
        | escape1 =>
          simp only [scanStep.call, escape1]
          by_cases hh : isHexDigit input = true
          · simp only [hh, if_true, hexDecode, hlt]
            cases fromHexChar r.memory.m1 with
            | none => simp [hself]
            | some a =>
              cases fromHexChar input with
              | none => simp [hself]
              | some b => simp
          · simp [hh]

/-! ## Reading byte by byte -/

theorem turnBound_one {σ : Type} (d : Decoder σ) (r : valueReader) (x : Nat) :
    turnBound d r [x] 0 = 9 + turnRank d r := by
  simp [turnBound]

/-- The next byte of a value in terms of one turn of the loop of `Read`. -/
theorem nextByte_eq {σ : Type} (src : Source σ) (d : Decoder σ) (r : valueReader) :
    nextByte src d r =
      match readBody src d r [0] 0 with
      | .error e => .error e
      | .ok (.done _) => .ok (none, d, r)
      | .ok (.next d1 r1 q j) =>
        if j = 0 then nextByte src d1 r1 else .ok (q.head?, d1, r1) := by
  have hrk := turnRank_le d r
  unfold nextByte valueReader.Read
  have e18 : 9 * ([0] : List Nat).length + 9 = 17 + 1 := rfl
  rw [e18, readLoop]
  simp only [List.length_singleton, Nat.lt_one_iff, if_true]
  cases hB : readBody src d r [0] 0 with
  | error e => rfl
  | ok t =>
    cases t with
    | done res =>
      obtain ⟨hres, -⟩ := readBody_done src d r [0] 0 res hB
      subst hres
      rfl
    | next d1 r1 q j =>
      obtain ⟨hlen, -, hj, hbound, hq⟩ :=
        readBody_next src d d1 r r1 [0] q 0 j (by simp) hB
      simp only []
      by_cases hj0 : j = 0
      · subst hj0
        have hq0 : q = [0] := hq rfl
        subst hq0
        rw [turnBound_one, turnBound_one] at hbound
        simp only [if_true]
        rw [readLoop_fuel src d1 r1 [0] 0 17 (9 * 1 + 9)
          (by rw [turnBound_one]; omega) (by rw [turnBound_one]; have := turnRank_le d1 r1; omega)]
      · have hj1 : j = 1 := by omega
        subst hj1
        simp only [one_ne_zero, if_false]
        rw [readLoop]
        have : ¬ (1 < q.length) := by rw [hlen]; simp
        simp [this]

/-- The loop of `Read` on a destination whose unwritten part is zero gives the bytes
that reading one byte at a time gives. -/
theorem readLoop_pull {σ : Type} (src : Source σ) (f : Nat) :
    ∀ (d : Decoder σ) (r : valueReader) (w : List Nat) (m : Nat),
      turnBound d r (w ++ List.replicate m 0) w.length < f →
      readLoop src f d r (w ++ List.replicate m 0) w.length =
        match pull src m d r with
        | .error e => .error e
        | .ok v => .ok
            { n := w.length + v.data.length,
              err := if v.eof = true then some .EOF else none,
              p := w ++ v.data ++ List.replicate (m - v.data.length) 0,
              d := v.d, r := v.r } := by
  induction f with
  | zero => intro d r w m h; omega
  | succ f ih =>
    intro d r w m h
    rw [readLoop]
    cases m with
    | zero => simp [pull]
    | succ m =>
      have hlt : w.length < (w ++ List.replicate (m + 1) 0).length := by simp
      have hx : (w ++ List.replicate (m + 1) 0)[w.length]? = some 0 := by
        rw [List.getElem?_append_right (le_refl _)]
        simp [List.replicate_succ]
      have hb0 : turnBound d r (w ++ List.replicate (m + 1) 0) w.length
          = 9 * (m + 1) + turnRank d r := by
        simp [turnBound]
      rw [if_pos hlt, readBody_local src d r _ _ 0 hx, pull, nextByte_eq]
      cases hB : readBody src d r [0] 0 with
      | error e => rfl
      | ok t =>
        cases t with
        | done res =>
          obtain ⟨hres, -⟩ := readBody_done src d r [0] 0 res hB
          subst hres
          simp
        | next d1 r1 q j =>
          obtain ⟨hlen, -, hj, hbound, hq⟩ :=
            readBody_next src d d1 r r1 [0] q 0 j (by simp) hB
          simp only []
          by_cases hj0 : j = 0
          · subst hj0
            have hq0 : q = [0] := hq rfl
            subst hq0
            rw [turnBound_one, turnBound_one] at hbound
            simp only [if_true, Nat.add_zero]
            rw [ih d1 r1 w (m + 1) (by simp only [turnBound] at h ⊢; simp at h ⊢; omega)]
            rw [pull]
          · have hj1 : j = 1 := by omega
            subst hj1
            obtain ⟨b, hqb⟩ : ∃ b, q = [b] := by
              match q, hlen with
              | [b], _ => exact ⟨b, rfl⟩
            subst hqb
            have hset : (w ++ List.replicate (m + 1) 0).set w.length b
                = (w ++ [b]) ++ List.replicate m 0 := by
              rw [List.set_append_right _ _ (le_refl _)]
              simp [List.replicate_succ]
            have hrk := turnRank_le d1 r1
            simp only [one_ne_zero, if_false, List.headD_cons, hset, List.head?_cons]
            have := ih d1 r1 (w ++ [b]) m
              (by simp only [turnBound] at h ⊢; simp at h ⊢; omega)
            simp only [List.length_append, List.length_singleton] at this
            rw [this]
            cases pull src m d1 r1 with
            | error e => rfl
            | ok v => simp [Nat.add_assoc, Nat.add_comm 1]

/-- `Read` into a fresh destination of `n` bytes gives the first `n` bytes that reading
one byte at a time gives, or all of them and `io.EOF` when they are fewer. -/
theorem Read_pull {σ : Type} (src : Source σ) (d : Decoder σ) (r : valueReader) (n : Nat) :
    valueReader.Read src d r (List.replicate n 0) =
      match pull src n d r with
      | .error e => .error e
      | .ok v => .ok
          { n := v.data.length,
            err := if v.eof = true then some .EOF else none,
            p := v.data ++ List.replicate (n - v.data.length) 0,
            d := v.d, r := v.r } := by
  have h := readLoop_pull src (9 * n + 9) d r [] n
    (by have := turnRank_le d r; simp [turnBound]; omega)
  simp only [List.nil_append, List.length_nil, Nat.zero_add] at h
  unfold valueReader.Read
  simp only [List.length_replicate]
  exact h

theorem pull_length {σ : Type} (src : Source σ) (n : Nat) :
    ∀ (d : Decoder σ) (r : valueReader) (v : Drained σ), pull src n d r = .ok v →
      v.data.length ≤ n ∧ (v.eof = false → v.data.length = n) := by
  induction n with
  | zero =>
    intro d r v h
    simp only [pull, Except.ok.injEq] at h
    subst h
    simp
  | succ n ih =>
    intro d r v h
    rw [pull] at h
    cases hb : nextByte src d r with
    | error e => simp [hb] at h
    | ok t =>
      obtain ⟨ob, d1, r1⟩ := t
      cases ob with
      | none =>
        simp only [hb, Except.ok.injEq] at h
        subst h
        simp
      | some b =>
        simp only [hb] at h
        cases hp : pull src n d1 r1 with
        | error e => simp [hp] at h
        | ok rest =>
          simp only [hp, Except.ok.injEq] at h
          subst h
          have hrest := ih d1 r1 rest hp
          simp only [List.length_cons]
          exact ⟨by omega, fun h0 => by have := hrest.2 h0; omega⟩

/-- Reading `a + b` bytes one at a time is reading `a` and then, unless the value ended,
`b` more. -/
theorem pull_add {σ : Type} (src : Source σ) (a b : Nat) :
    ∀ (d : Decoder σ) (r : valueReader),
      pull src (a + b) d r =
        match pull src a d r with
        | .error e => .error e
        | .ok v =>
          if v.eof = true then .ok v
          else
            match pull src b v.d v.r with
            | .error e => .error e
            | .ok rest => .ok { rest with data := v.data ++ rest.data } := by
  induction a with
  | zero =>
    intro d r
    simp only [Nat.zero_add, pull]
    cases pull src b d r with
    | error e => rfl
    | ok rest => simp
  | succ a ih =>
    intro d r
    rw [show a + 1 + b = (a + b) + 1 by omega, pull, pull]
    cases hb : nextByte src d r with
    | error e => rfl
    | ok t =>
      obtain ⟨ob, d1, r1⟩ := t
      cases ob with
      | none => simp
      | some x =>
        simp only []
        rw [ih d1 r1]
        cases hp : pull src a d1 r1 with
        | error e => rfl
        | ok v =>
          simp only []
          by_cases he : v.eof = true
          · simp [he]
          · simp only [he, if_false]
            cases pull src b v.d v.r with
            | error e => rfl
            | ok rest => simp

/-- Once reading one byte at a time has met `io.EOF`, asking for more bytes changes
nothing. -/
theorem pull_mono {σ : Type} (src : Source σ) (n m : Nat) (d : Decoder σ)
    (r : valueReader) (v : Drained σ) (h : pull src n d r = .ok v) (he : v.eof = true)
    (hnm : n ≤ m) : pull src m d r = .ok v := by
  rw [show m = n + (m - n) by omega, pull_add, h]
  simp [he]

/-- Draining with destinations of any sizes is reading one byte at a time, as many
bytes as the destinations hold together. -/
theorem drain_pull {σ : Type} (src : Source σ) (sizes : List Nat) :
    ∀ (d : Decoder σ) (r : valueReader), drain src sizes d r = pull src sizes.sum d r := by
  induction sizes with
  | nil => intro d r; rfl
  | cons n sizes ih =>
    intro d r
    rw [drain, Read_pull, List.sum_cons, pull_add]
    cases hp : pull src n d r with
    | error e => rfl
    | ok v =>
      simp only []
      by_cases he : v.eof = true
      · simp only [he, if_true, List.take_left]
        cases v
        simp_all
      · have he2 : v.eof = false := by simpa using he
        simp only [he2, Bool.false_eq_true, if_false, List.take_left, ih]
        cases pull src sizes.sum v.d v.r with
        | error e => rfl
        | ok rest => simp

theorem isHexDigit_iff (b : Nat) : isHexDigit b = true ↔ hexDigit b := by
  unfold isHexDigit hexDigit
  simp only [decide_eq_true_eq]
  constructor <;> intro h <;> omega

theorem fromHexChar_hexDigit (b : Nat) (h : hexDigit b) :
    fromHexChar b = some (hexval b) ∧ hexval b < 16 := by
  unfold hexDigit at h
  unfold fromHexChar hexval
  rcases h with h | h | h
  · rw [if_pos h, if_pos h]
    exact ⟨rfl, by omega⟩
  · rw [if_neg (by omega), if_neg (by omega), if_pos h, if_neg (by omega), if_pos h]
    exact ⟨by congr 1; omega, by omega⟩
  · rw [if_neg (by omega), if_pos h, if_neg (by omega), if_neg (by omega), if_pos h]
    exact ⟨by congr 1; omega, by omega⟩

theorem shift_or (a b : Nat) (hb : b < 16) : (a <<< 4) ||| b = 16 * a + b := by
  rw [Nat.shiftLeft_eq, Nat.mul_comm]
  exact (Nat.mul_add_lt_is_or (i := 4) hb a).symm

/-- What `hex.Decode` stores for two hex digits. -/
theorem hexDecode_hexDigit (p : List Nat) (offset : Nat) (h l : Nat)
    (hlt : offset < p.length) (hh : hexDigit h) (hl : hexDigit l) :
    hexDecode p offset h l = .ok (p.set offset (16 * hexval h + hexval l)) := by
  unfold hexDecode
  rw [if_pos hlt, (fromHexChar_hexDigit h hh).1, (fromHexChar_hexDigit l hl).1]
  simp only []
  rw [shift_or _ _ (fromHexChar_hexDigit l hl).2]

/-! ## Reading a value from a source that delivers a finite stream -/

theorem Reading_eof {σ : Type} (content : σ → List Nat) (ok : σ → Prop) (d : Decoder σ)
    (r : valueReader) (out after : List Nat) (he : r.eof = true) :
    Reading content ok d r out after ↔
      d.WF ∧ ok d.source ∧ r.outputBuffer = out ∧ d.pending content = after := by
  unfold Reading
  rw [if_pos he]

theorem Reading_live {σ : Type} (content : σ → List Nat) (ok : σ → Prop) (d : Decoder σ)
    (r : valueReader) (out after : List Nat) (he : r.eof = false) :
    Reading content ok d r out after ↔
      d.WF ∧ ok d.source ∧ r.WF ∧ ∃ v : List Nat, (∀ b ∈ v, b ≠ 38) ∧ r.rest v = out ∧
        ((d.pending content = v ∧ after = []) ∨ d.pending content = v ++ 38 :: after) := by
  unfold Reading
  rw [if_neg (by simp [he])]

theorem Reading_eof_intro {σ : Type} (content : σ → List Nat) (ok : σ → Prop)
    (d : Decoder σ) (r : valueReader) (out after : List Nat) (he : r.eof = true)
    (hwf : d.WF) (hok : ok d.source) (hob : r.outputBuffer = out)
    (hpend : d.pending content = after) : Reading content ok d r out after :=
  (Reading_eof content ok d r out after he).mpr ⟨hwf, hok, hob, hpend⟩

theorem Reading_live_intro {σ : Type} (content : σ → List Nat) (ok : σ → Prop)
    (d : Decoder σ) (r : valueReader) (out after : List Nat) (he : r.eof = false)
    (hwf : d.WF) (hok : ok d.source) (hr : r.WF) (v : List Nat) (hv : ∀ b ∈ v, b ≠ 38)
    (hrest : r.rest v = out)
    (hpend : (d.pending content = v ∧ after = []) ∨ d.pending content = v ++ 38 :: after) :
    Reading content ok d r out after :=
  (Reading_live content ok d r out after he).mpr ⟨hwf, hok, hr, v, hv, hrest, hpend⟩

/-- At the end of the raw value what is left to read is the output buffer. -/
theorem rest_nil (r : valueReader) (h : r.WF) : r.rest [] = r.outputBuffer := by
  unfold valueReader.WF at h
  unfold valueReader.rest
  cases hs : r.step with
  | defaultStep => simp [decodeFrom]
  | escape =>
    rw [hs] at h
    simp only [decodeFrom]
    exact h.2.1.symm
  | escape1 =>
    rw [hs] at h
    simp only [decodeFrom]
    exact h.2.1.symm

theorem pending_consume {σ : Type} (content : σ → List Nat) (d : Decoder σ) (input : Nat)
    (h : d.buffer[d.offset]? = some input) :
    d.pending content
      = input :: Decoder.pending content { d with offset := d.offset + 1 } := by
  unfold Decoder.pending Decoder.unread
  have hlt : d.offset < d.buffer.length := by
    rcases Nat.lt_or_ge d.offset d.buffer.length with hl | hl
    · exact hl
    · rw [List.getElem?_eq_none hl] at h
      simp at h
  rw [List.getElem?_eq_getElem hlt] at h
  simp only [Option.some.injEq] at h
  rw [List.drop_eq_getElem_cons hlt, h]
  rfl

/-- The head of a value that is followed by `&` or by the end of the input, when the
input starts with a byte other than `&`. -/
theorem value_cons (v after pend : List Nat) (input : Nat) (h38 : input ≠ 38)
    (hv : ∀ b ∈ v, b ≠ 38)
    (h : (input :: pend = v ∧ after = []) ∨ input :: pend = v ++ 38 :: after) :
    ∃ v1, v = input :: v1 ∧ (∀ b ∈ v1, b ≠ 38) ∧
      ((pend = v1 ∧ after = []) ∨ pend = v1 ++ 38 :: after) := by
  cases v with
  | nil =>
    rcases h with ⟨h, -⟩ | h
    · simp at h
    · simp only [List.nil_append, List.cons.injEq] at h
      exact absurd h.1 h38
  | cons c v1 =>
    refine ⟨v1, ?_, fun b hb => hv b (List.mem_cons_of_mem _ hb), ?_⟩
    · rcases h with ⟨h, -⟩ | h
      · simp only [List.cons.injEq] at h
        rw [h.1]
      · simp only [List.cons_append, List.cons.injEq] at h
        rw [h.1]
    · rcases h with ⟨h, ha⟩ | h
      · simp only [List.cons.injEq] at h
        exact Or.inl ⟨h.2, ha⟩
      · simp only [List.cons_append, List.cons.injEq] at h
        exact Or.inr h.2

/-- The value is over when the input starts with `&`. -/
theorem value_amp (v after pend : List Nat) (hv : ∀ b ∈ v, b ≠ 38)
    (h : (38 :: pend = v ∧ after = []) ∨ 38 :: pend = v ++ 38 :: after) :
    v = [] ∧ pend = after := by
  cases v with
  | nil =>
    rcases h with ⟨h, -⟩ | h
    · simp at h
    · simp only [List.nil_append, List.cons.injEq, true_and] at h
      exact ⟨rfl, h⟩
  | cons c v1 =>
    have hc : c ≠ 38 := hv c (List.mem_cons_self _ _)
    rcases h with ⟨h, -⟩ | h
    · simp only [List.cons.injEq] at h
      exact absurd h.1.symm hc
    · simp only [List.cons_append, List.cons.injEq] at h
      exact absurd h.1.symm hc

/-- The value is over when no input is left. -/
theorem value_end (v after : List Nat)
    (h : (([] : List Nat) = v ∧ after = []) ∨ [] = v ++ 38 :: after) :
    v = [] ∧ after = [] := by
  rcases h with ⟨h, ha⟩ | h
  · exact ⟨h.symm, ha⟩
  · simp at h

/-- A turn of the loop of `Read` when the reader is at the end of its value. -/
theorem readBody_reading_eof {σ : Type} (content : σ → List Nat) (ok : σ → Prop)
    (src : Source σ) (d : Decoder σ) (r : valueReader) (p : List Nat) (offset : Nat)
    (out after : List Nat) (hlt : offset < p.length) (he : r.eof = true)
    (h : Reading content ok d r out after) :
    TurnOk content ok src d r p offset out after := by
  rw [Reading_eof content ok d r out after he] at h
  obtain ⟨hwf, hok, hob, hpend⟩ := h
  cases hout : r.outputBuffer with
  | nil =>
    refine Or.inr (Or.inr ⟨by rw [← hob, hout], he, ?_⟩)
    unfold readBody
    simp [hout, he]
  | cons b rest =>
    refine Or.inr (Or.inl ⟨b, rest, d, { r with outputBuffer := rest }, by rw [← hob, hout],
      ?_, ?_⟩)
    · unfold readBody
      simp [hout, he, store, hlt]
    · exact (Reading_eof content ok d { r with outputBuffer := rest } rest after he).mpr
        ⟨hwf, hok, rfl, hpend⟩

/-- A turn of the loop of `Read` that flushes a byte of the output buffer. -/
theorem readBody_reading_flush {σ : Type} (content : σ → List Nat) (ok : σ → Prop)
    (src : Source σ) (d : Decoder σ) (r : valueReader) (p : List Nat) (offset : Nat)
    (out after : List Nat) (hlt : offset < p.length) (he : r.eof = false)
    (hf : r.flush = true) (hne : r.outputBuffer ≠ [])
    (h : Reading content ok d r out after) :
    TurnOk content ok src d r p offset out after := by
  rw [Reading_live content ok d r out after he] at h
  obtain ⟨hwf, hok, hr, v, hv, hrest, hpend⟩ := h
  have hstep : r.step = .defaultStep := by
    unfold valueReader.WF at hr
    cases hs : r.step with
    | defaultStep => rfl
    | escape => rw [hs] at hr; rw [hr.1] at hf; simp at hf
    | escape1 => rw [hs] at hr; rw [hr.1] at hf; simp at hf
  cases hout : r.outputBuffer with
  | nil => exact absurd hout hne
  | cons b rest =>
    refine Or.inr (Or.inl ⟨b, rest ++ decodeFrom .Verbatim v, d,
      { r with outputBuffer := rest }, ?_, ?_, ?_⟩)
    · rw [← hrest]
      unfold valueReader.rest
      rw [hstep, hout]
      rfl
    · unfold readBody
      simp [hout, hf, store, hlt]
    · refine (Reading_live content ok d { r with outputBuffer := rest } _ after he).mpr ?_
      refine ⟨hwf, hok, ?_, v, hv, ?_, hpend⟩
      · unfold valueReader.WF
        simp only [hstep]
        exact fun _ => hf
      · unfold valueReader.rest
        simp only [hstep]

/-- A turn of the loop of `Read` that refills the window. -/
theorem readBody_reading_fill {σ : Type} (content : σ → List Nat) (ok : σ → Prop)
    (src : Source σ) (hsrc : Delivers src content ok) (d : Decoder σ) (r : valueReader)
    (p : List Nat) (offset : Nat) (out after : List Nat) (he : r.eof = false)
    (hnf : ¬ ((r.flush = true ∨ r.eof = true) ∧ 0 < r.outputBuffer.length))
    (hfill : d.offset = d.buffer.length)
    (h : Reading content ok d r out after) :
    TurnOk content ok src d r p offset out after := by
  rw [Reading_live content ok d r out after he] at h
  obtain ⟨hwf, hok, hr, v, hv, hrest, hpend⟩ := h
  obtain ⟨hwo, hwc, hcap⟩ := hwf
  have hwp : 0 < d.cap := by rw [hcap]; decide
  have hn : d.cap - (d.buffer.length - d.offset) = d.cap := by omega
  have hfits := hsrc.fits d.source d.cap hok
  have hfe := fill_eq src d hwo hwc (by rw [hn]; exact hfits)
  rw [hn] at hfe
  have hdrop : List.drop d.offset d.buffer = [] := by
    rw [hfill]
    exact List.drop_length d.buffer
  rw [hdrop, List.nil_append] at hfe
  have hpd : d.pending content = content d.source := by
    unfold Decoder.pending Decoder.unread
    rw [hdrop, List.nil_append]
  have hsplit := hsrc.split d.source d.cap hok
  have hok1 := hsrc.next_ok d.source d.cap hok
  have hprog : content d.source ≠ [] → (src.Read d.source d.cap).data ≠ [] :=
    hsrc.progress d.source d.cap hok hwp
  generalize src.Read d.source d.cap = f at hfits hfe hsplit hok1 hprog
  obtain ⟨d1, hd1⟩ : ∃ d1 : Decoder σ,
      d1 = { source := f.next, buffer := f.data, cap := d.cap, offset := 0 } := ⟨_, rfl⟩
  rw [← hd1] at hfe
  have hwf1 : d1.WF := by
    rw [hd1]
    exact ⟨Nat.zero_le _, hfits, hcap⟩
  have hpd1 : d1.pending content = d.pending content := by
    rw [hpd, hsplit, hd1]
    rfl
  have hs1 : d1.source = f.next := by rw [hd1]
  have hb1 : d1.buffer = f.data := by rw [hd1]
  refine Or.inl ⟨d1, { r with eof := decide (d1.buffer.length = 0) }, ?_, ?_⟩
  · unfold readBody
    rw [if_neg hnf, if_pos ⟨he, hfill⟩, hfe]
  · by_cases hdata : f.data = []
    · have hc : content d.source = [] := by
        by_contra hcne
        exact hprog hcne hdata
      rw [hpd, hc] at hpend
      obtain ⟨hv0, ha0⟩ := value_end v after hpend
      refine (Reading_eof content ok _ _ out after (by simp [hb1, hdata])).mpr
        ⟨hwf1, by rw [hs1]; exact hok1, ?_, ?_⟩
      · show r.outputBuffer = out
        rw [← hrest, hv0, rest_nil r hr]
      · rw [hpd1, hpd, hc, ha0]
    · refine (Reading_live content ok _ _ out after (by simp [hb1, hdata])).mpr
        ⟨hwf1, by rw [hs1]; exact hok1, hr, v, hv, hrest, ?_⟩
      rw [hpd1]
      exact hpend

/-- A turn of the loop of `Read` that consumes a byte of the window. -/
theorem readBody_reading_consume {σ : Type} (content : σ → List Nat) (ok : σ → Prop)
    (src : Source σ) (d : Decoder σ) (r : valueReader)
    (p : List Nat) (offset : Nat) (out after : List Nat) (hlt : offset < p.length)
    (he : r.eof = false)
    (hnf : ¬ ((r.flush = true ∨ r.eof = true) ∧ 0 < r.outputBuffer.length))
    (hfill : d.offset ≠ d.buffer.length)
    (h : Reading content ok d r out after) :
    TurnOk content ok src d r p offset out after := by
  rw [Reading_live content ok d r out after he] at h
  obtain ⟨hwf, hok, hr, v, hv, hrest, hpend⟩ := h
  obtain ⟨hwo, hwc, hwp⟩ := hwf
  have hdlt : d.offset < d.buffer.length := by omega
  obtain ⟨input, hin⟩ : ∃ input, d.buffer[d.offset]? = some input :=
    ⟨_, List.getElem?_eq_getElem hdlt⟩
  have hpc := pending_consume content d input hin
  have hwf1 : Decoder.WF { d with offset := d.offset + 1 } := ⟨hdlt, hwc, hwp⟩
  have hbody : readBody src d r p offset =
      if input = 38 then
        .ok (.next { d with offset := d.offset + 1 } { r with eof := true } p offset)
      else
        match r.step.call r input p offset with
        | .error e => .error e
        | .ok (r1, p1, offset1) => .ok (.next { d with offset := d.offset + 1 } r1 p1 offset1) := by
    unfold readBody
    rw [if_neg hnf, if_neg (fun hx => hfill hx.2), if_neg (by simp [he]), hin]
  rw [hpc] at hpend
  by_cases h38 : input = 38
  · -- the value ends at `&`
    rw [if_pos h38] at hbody
    rw [h38] at hpend
    obtain ⟨hv0, hafter⟩ := value_amp v after _ hv (by
      rcases hpend with ⟨h1, h2⟩ | h1
      · exact Or.inl ⟨h1, h2⟩
      · exact Or.inr h1)
    refine Or.inl ⟨_, _, hbody, ?_⟩
    refine Reading_eof_intro content ok _ _ out after rfl hwf1 hok ?_ hafter
    show r.outputBuffer = out
    rw [← hrest, hv0, rest_nil r hr]
  · rw [if_neg h38] at hbody
    obtain ⟨v1, hvc, hv1, hpend1⟩ := value_cons v after _ input h38 hv hpend
    subst hvc
    unfold valueReader.WF at hr
    unfold valueReader.rest at hrest
    cases hs : r.step with
    | defaultStep =>
      rw [hs] at hr hrest hbody
      simp only [] at hr hrest
      have hob : r.outputBuffer = [] := by
        by_contra hne
        exact hnf ⟨Or.inl (hr hne), List.length_pos.mpr hne⟩
      rw [hob, List.nil_append] at hrest
      simp only [scanStep.call, defaultStep] at hbody
      by_cases h37 : input = 37
      · rw [if_pos h37] at hbody
        refine Or.inl ⟨_, _, hbody, ?_⟩
        refine Reading_live_intro content ok _ _ out after he hwf1 hok ?_ v1 hv1 ?_ hpend1
        · unfold valueReader.WF
          exact ⟨rfl, rfl, rfl⟩
        · rw [← hrest, decodeFrom, if_pos h37]
          rfl
      · rw [if_neg h37] at hbody
        simp only [store, hlt, if_true] at hbody
        refine Or.inr (Or.inl ⟨if input = 43 then 32 else input,
          decodeFrom .Verbatim v1, _, _, ?_, hbody, ?_⟩)
        · rw [← hrest, decodeFrom, if_neg h37]
          split_ifs <;> rfl
        · refine Reading_live_intro content ok _ _ _ after he hwf1 hok ?_ v1 hv1 ?_ hpend1
          · unfold valueReader.WF
            rw [hs]
            exact fun hne => absurd hob hne
          · unfold valueReader.rest
            rw [hs, hob, List.nil_append]
    | escape =>
      rw [hs] at hr hrest hbody
      simp only [] at hr hrest
      obtain ⟨hfl, hob, hm0⟩ := hr
      simp only [scanStep.call, escape] at hbody
      by_cases hx : isHexDigit input = true
      · have hxd := (isHexDigit_iff input).mp hx
        rw [if_pos hx] at hbody
        refine Or.inl ⟨_, _, hbody, ?_⟩
        refine Reading_live_intro content ok _ _ out after he hwf1 hok ?_ v1 hv1 ?_ hpend1
        · unfold valueReader.WF
          exact ⟨hfl, by simp [hm0], hm0, hxd⟩
        · rw [← hrest, decodeFrom, if_pos hxd]
          rfl
      · have hxd : ¬ hexDigit input := fun hd => hx ((isHexDigit_iff input).mpr hd)
        rw [if_neg hx] at hbody
        refine Or.inl ⟨_, _, hbody, ?_⟩
        refine Reading_live_intro content ok _ _ out after he hwf1 hok ?_ v1 hv1 ?_ hpend1
        · unfold valueReader.WF
          exact fun _ => rfl
        · rw [← hrest, decodeFrom, if_neg hxd]
          unfold valueReader.rest
          simp [hm0]
    | escape1 =>
      rw [hs] at hr hrest hbody
      simp only [] at hr hrest
      obtain ⟨hfl, hob, hm0, hm1⟩ := hr
      simp only [scanStep.call, escape1] at hbody
      by_cases hx : isHexDigit input = true
      · have hxd := (isHexDigit_iff input).mp hx
        rw [if_pos hx] at hbody
        simp only [hexDecode_hexDigit p offset r.memory.m1 input hlt hm1 hxd] at hbody
        refine Or.inr (Or.inl ⟨16 * hexval r.memory.m1 + hexval input,
          decodeFrom .Verbatim v1, _, _, ?_, hbody, ?_⟩)
        · rw [← hrest, decodeFrom, if_pos hxd]
        · refine Reading_live_intro content ok _ _ _ after he hwf1 hok ?_ v1 hv1 ?_ hpend1
          · unfold valueReader.WF
            exact fun hne => absurd rfl hne
          · unfold valueReader.rest
            simp
      · have hxd : ¬ hexDigit input := fun hd => hx ((isHexDigit_iff input).mpr hd)
        rw [if_neg hx] at hbody
        refine Or.inl ⟨_, _, hbody, ?_⟩
        refine Reading_live_intro content ok _ _ out after he hwf1 hok ?_ v1 hv1 ?_ hpend1
        · unfold valueReader.WF
          exact fun _ => rfl
        · rw [← hrest, decodeFrom, if_neg hxd]
          unfold valueReader.rest
          simp [hm0]

/-- A turn of the loop of `Read` at a point of a value. -/
theorem readBody_reading {σ : Type} (content : σ → List Nat) (ok : σ → Prop)
    (src : Source σ) (hsrc : Delivers src content ok) (d : Decoder σ) (r : valueReader)
    (p : List Nat) (offset : Nat) (out after : List Nat) (hlt : offset < p.length)
    (h : Reading content ok d r out after) :
    TurnOk content ok src d r p offset out after := by
  by_cases he : r.eof = true
  · exact readBody_reading_eof content ok src d r p offset out after hlt he h
  · have he0 : r.eof = false := by simpa using he
    by_cases hf : (r.flush = true ∨ r.eof = true) ∧ 0 < r.outputBuffer.length
    · have hfl : r.flush = true := by
        rcases hf.1 with h1 | h1
        · exact h1
        · exact absurd h1 he
      exact readBody_reading_flush content ok src d r p offset out after hlt he0 hfl
        (List.length_pos.mp hf.2) h
    · by_cases hfill : d.offset = d.buffer.length
      · exact readBody_reading_fill content ok src hsrc d r p offset out after he0 hf hfill h
      · exact readBody_reading_consume content ok src d r p offset out after hlt he0 hf
          hfill h

/-- The next byte of a value at a point from which `out` is still to be read is the
first byte of `out`, or `io.EOF` when `out` is empty. -/
theorem nextByte_reading {σ : Type} (content : σ → List Nat) (ok : σ → Prop)
    (src : Source σ) (hsrc : Delivers src content ok) (out after : List Nat) (k : Nat) :
    ∀ (d : Decoder σ) (r : valueReader), turnRank d r ≤ k →
      Reading content ok d r out after →
      ∃ d1 r1, nextByte src d r = .ok (out.head?, d1, r1) ∧
        Reading content ok d1 r1 out.tail after ∧ (out = [] → r1.eof = true) := by
  induction k with
  | zero =>
    intro d r hk h
    rw [nextByte_eq]
    rcases readBody_reading content ok src hsrc d r [0] 0 out after (by simp) h with
      ⟨d1, r1, hb, -⟩ | ⟨b, out1, d1, r1, hout, hb, h1⟩ | ⟨hout, he, hb⟩
    · have := (readBody_next src d d1 r r1 [0] [0] 0 0 (by simp) hb).2.2.2.1
      rw [turnBound_one, turnBound_one] at this
      omega
    · rw [hb, hout]
      exact ⟨d1, r1, rfl, h1, fun hx => by simp at hx⟩
    · rw [hb, hout]
      exact ⟨d, r, rfl, by rw [hout] at h; exact h, fun _ => he⟩
  | succ k ih =>
    intro d r hk h
    rw [nextByte_eq]
    rcases readBody_reading content ok src hsrc d r [0] 0 out after (by simp) h with
      ⟨d1, r1, hb, h1⟩ | ⟨b, out1, d1, r1, hout, hb, h1⟩ | ⟨hout, he, hb⟩
    · have := (readBody_next src d d1 r r1 [0] [0] 0 0 (by simp) hb).2.2.2.1
      rw [turnBound_one, turnBound_one] at this
      rw [hb]
      exact ih d1 r1 (by omega) h1
    · rw [hb, hout]
      exact ⟨d1, r1, rfl, h1, fun hx => by simp at hx⟩
    · rw [hb, hout]
      exact ⟨d, r, rfl, by rw [hout] at h; exact h, fun _ => he⟩

/-- Reading up to `n` bytes one at a time at a point from which `out` is still to be
read gives the first `n` bytes of `out`, and `io.EOF` when `out` has fewer. -/
theorem pull_reading {σ : Type} (content : σ → List Nat) (ok : σ → Prop)
    (src : Source σ) (hsrc : Delivers src content ok) (after : List Nat) (n : Nat) :
    ∀ (d : Decoder σ) (r : valueReader) (out : List Nat),
      Reading content ok d r out after →
      ∃ d1 r1, pull src n d r
          = .ok { data := out.take n, eof := decide (out.length < n), d := d1, r := r1 } ∧
        Reading content ok d1 r1 (out.drop n) after ∧ (out.length < n → r1.eof = true) := by
  induction n with
  | zero =>
    intro d r out h
    exact ⟨d, r, by simp [pull], by simpa using h, fun hx => by omega⟩
  | succ n ih =>
    intro d r out h
    obtain ⟨d1, r1, hnb, h1, he1⟩ :=
      nextByte_reading content ok src hsrc out after _ d r (le_refl _) h
    rw [pull, hnb]
    cases out with
    | nil =>
      refine ⟨d1, r1, by simp, by simpa using h1, fun _ => he1 rfl⟩
    | cons b out1 =>
      simp only [List.head?_cons, List.tail_cons] at h1 ⊢
      obtain ⟨d2, r2, hp, h2, he2⟩ := ih d1 r1 out1 h1
      rw [hp]
      refine ⟨d2, r2, by simp, by simpa using h2, fun hx => he2 (by simpa using hx)⟩

theorem length_le_sum (sizes : List Nat) (h : ∀ s ∈ sizes, 0 < s) :
    sizes.length ≤ sizes.sum := by
  induction sizes with
  | nil => simp
  | cons s sizes ih =>
    have h1 := h s (List.mem_cons_self _ _)
    have h2 := ih (fun x hx => h x (List.mem_cons_of_mem _ hx))
    simp only [List.length_cons, List.sum_cons]
    omega

/-- Draining a value at a point from which `out` is still to be read, with destinations
that hold more than `out` together, gives `out` and ends at `io.EOF` with the unconsumed
input `after`. -/
theorem drain_reading {σ : Type} (content : σ → List Nat) (ok : σ → Prop)
    (src : Source σ) (hsrc : Delivers src content ok) (d : Decoder σ) (r : valueReader)
    (out after : List Nat) (sizes : List Nat) (hsum : out.length < sizes.sum)
    (h : Reading content ok d r out after) :
    ∃ d1 r1, drain src sizes d r = .ok { data := out, eof := true, d := d1, r := r1 } ∧
      d1.WF ∧ ok d1.source ∧ d1.pending content = after ∧ r1.eof = true ∧
      r1.outputBuffer = [] := by
  obtain ⟨d1, r1, hp, h1, he1⟩ := pull_reading content ok src hsrc after sizes.sum d r out h
  have he := he1 hsum
  rw [Reading_eof content ok d1 r1 _ after he] at h1
  obtain ⟨hwf, hok, hob, hpend⟩ := h1
  refine ⟨d1, r1, ?_, hwf, hok, hpend, he, ?_⟩
  · rw [drain_pull, hp]
    simp [hsum, List.take_of_length_le (le_of_lt hsum)]
  · rw [hob]
    exact List.drop_of_length_le (le_of_lt hsum)

/-! ## Finding the key -/

/-- The loop of `NextPair` stops at the first `=` or `&` of the window; the key is what
precedes it, and the offset is moved past a `=` but not past a `&`. -/
theorem scanLoop_delim {σ : Type} (k tl : List Nat) (c : Nat) (hc : c = 38 ∨ c = 61)
    (fuel : Nat) :
    ∀ (d : Decoder σ), d.buffer = k ++ c :: tl → d.offset ≤ k.length →
      (∀ b ∈ k.drop d.offset, b ≠ 38 ∧ b ≠ 61) → k.length - d.offset < fuel →
      scanLoop fuel d = .ok (.inl
        { key := k, value := some newValueReader, err := none,
          d := { d with offset := if c = 61 then k.length + 1 else k.length } }) := by
  induction fuel with
  | zero => intro d _ _ _ h; omega
  | succ fuel ih =>
    intro d hbuf hoff hk hfuel
    rw [scanLoop]
    have hlt : d.offset < d.buffer.length := by
      rw [hbuf]
      simp only [List.length_append, List.length_cons]
      omega
    rw [if_pos hlt]
    by_cases hat : d.offset = k.length
    · have hin : d.buffer[d.offset]? = some c := by
        rw [hbuf, hat, List.getElem?_append_right (le_refl _)]
        simp
      rw [hin]
      simp only []
      rcases hc with hc | hc
      · subst hc
        simp only [if_true, Nat.reduceEqDiff, if_false]
        rw [hbuf, hat, List.take_left]
        cases d
        simp_all
      · subst hc
        simp only [Nat.reduceEqDiff, if_false, if_true, Nat.add_sub_cancel]
        rw [hbuf, hat, List.take_left]
    · have hltk : d.offset < k.length := by omega
      have hin : d.buffer[d.offset]? = some k[d.offset] := by
        rw [hbuf, List.getElem?_append_left hltk, List.getElem?_eq_getElem hltk]
      have hmem : k[d.offset] ∈ k.drop d.offset := by
        rw [List.drop_eq_getElem_cons hltk]
        exact List.mem_cons_self _ _
      obtain ⟨h38, h61⟩ := hk _ hmem
      rw [hin]
      simp only [h38, h61, if_false]
      rw [ih { d with offset := d.offset + 1 } hbuf hltk
        (fun b hb => hk b (by
          rw [List.drop_eq_getElem_cons hltk]
          exact List.mem_cons_of_mem _ hb))
        (by simp only []; omega)]

/-- The loop of `NextPair` runs to the end of a window without `=` and `&`. -/
theorem scanLoop_end {σ : Type} (fuel : Nat) :
    ∀ (d : Decoder σ), d.offset ≤ d.buffer.length →
      (∀ b ∈ d.buffer.drop d.offset, b ≠ 38 ∧ b ≠ 61) →
      d.buffer.length - d.offset < fuel →
      scanLoop fuel d = .ok (.inr { d with offset := d.buffer.length }) := by
  induction fuel with
  | zero => intro d _ _ h; omega
  | succ fuel ih =>
    intro d hoff hk hfuel
    rw [scanLoop]
    by_cases hlt : d.offset < d.buffer.length
    · rw [if_pos hlt]
      have hin : d.buffer[d.offset]? = some d.buffer[d.offset] :=
        List.getElem?_eq_getElem hlt
      have hmem : d.buffer[d.offset] ∈ d.buffer.drop d.offset := by
        rw [List.drop_eq_getElem_cons hlt]
        exact List.mem_cons_self _ _
      obtain ⟨h38, h61⟩ := hk _ hmem
      rw [hin]
      simp only [h38, h61, if_false]
      rw [ih { d with offset := d.offset + 1 } hlt
        (fun b hb => hk b (by
          rw [List.drop_eq_getElem_cons hlt]
          exact List.mem_cons_of_mem _ hb))
        (by simp only []; omega)]
    · rw [if_neg hlt]
      have : d.offset = d.buffer.length := by omega
      cases d
      simp_all

/-- `NextPair` when the window holds a key followed by `=` after the refill. -/
theorem NextPair_eq {σ : Type} (src : Source σ) (d d1 : Decoder σ) (e : Option Error)
    (k tl : List Nat) (hf : d.fill src = .ok (d1, e)) (hbuf : d1.buffer = k ++ 61 :: tl)
    (hk : ∀ b ∈ k, b ≠ 38 ∧ b ≠ 61) :
    d.NextPair src = .ok { key := k, value := some newValueReader, err := none,
                           d := { d1 with offset := k.length + 1 } } := by
  obtain ⟨hz, -, -⟩ := fill_shape src d d1 e hf
  unfold Decoder.NextPair
  rw [hf]
  simp only []
  rw [if_neg (by rw [hbuf]; simp)]
  rw [scanLoop_delim k tl 61 (Or.inr rfl) _ d1 hbuf (by omega)
    (fun b hb => hk b (List.mem_of_mem_drop hb))
    (by rw [hbuf, hz]; simp only [List.length_append, List.length_cons]; omega)]
  simp

/-- `NextPair` when the window holds a key followed by `&` after the refill. -/
theorem NextPair_amp {σ : Type} (src : Source σ) (d d1 : Decoder σ) (e : Option Error)
    (k tl : List Nat) (hf : d.fill src = .ok (d1, e)) (hbuf : d1.buffer = k ++ 38 :: tl)
    (hk : ∀ b ∈ k, b ≠ 38 ∧ b ≠ 61) :
    d.NextPair src = .ok { key := k, value := some newValueReader, err := none,
                           d := { d1 with offset := k.length } } := by
  obtain ⟨hz, -, -⟩ := fill_shape src d d1 e hf
  unfold Decoder.NextPair
  rw [hf]
  simp only []
  rw [if_neg (by rw [hbuf]; simp)]
  rw [scanLoop_delim k tl 38 (Or.inl rfl) _ d1 hbuf (by omega)
    (fun b hb => hk b (List.mem_of_mem_drop hb))
    (by rw [hbuf, hz]; simp only [List.length_append, List.length_cons]; omega)]
  simp

/-- `NextPair` when the window holds no `=` and no `&` after the refill: the window is
the key when it is not full, and the key is too long when it is. -/
theorem NextPair_end {σ : Type} (src : Source σ) (d d1 : Decoder σ) (e : Option Error)
    (hf : d.fill src = .ok (d1, e)) (hne : d1.buffer ≠ [])
    (hk : ∀ b ∈ d1.buffer, b ≠ 38 ∧ b ≠ 61) :
    d.NextPair src = .ok
      (if d1.buffer.length < d1.cap then
        { key := d1.buffer, value := some newValueReader, err := none,
          d := { d1 with offset := d1.buffer.length } }
      else
        { key := [], value := none, err := some .keyTooLong,
          d := { d1 with offset := d1.buffer.length } }) := by
  obtain ⟨hz, -, -⟩ := fill_shape src d d1 e hf
  unfold Decoder.NextPair
  rw [hf]
  simp only []
  rw [if_neg (by simpa using hne)]
  rw [scanLoop_end _ d1 (by omega) (fun b hb => hk b (List.mem_of_mem_drop hb)) (by omega)]
  simp only []
  split_ifs <;> rfl

/-- `NextPair` when the window is empty after the refill: no pair, and the error of the
source. -/
theorem NextPair_empty {σ : Type} (src : Source σ) (d d1 : Decoder σ) (e : Option Error)
    (hf : d.fill src = .ok (d1, e)) (hbuf : d1.buffer = []) :
    d.NextPair src = .ok { key := [], value := none, err := e, d := d1 } := by
  unfold Decoder.NextPair
  rw [hf]
  simp [hbuf]

/-! ## Sources -/

/-- An in-memory buffer delivers its bytes. -/
theorem bytesBuffer_delivers : Delivers bytesBuffer id (fun _ => True) where
  fits := by
    intro s n _
    unfold bytesBuffer
    by_cases hs : s = []
    · simp [hs]
    · simp only [hs, if_false, List.length_take]
      omega
  split := by
    intro s n _
    unfold bytesBuffer
    by_cases hs : s = []
    · simp [hs]
    · simp [hs]
  progress := by
    intro s n _ hn hs
    unfold bytesBuffer
    simp only [id] at hs
    simp only [hs, if_false]
    cases s with
    | nil => exact absurd rfl hs
    | cons b s =>
      cases n with
      | zero => omega
      | succ n => simp
  eof := by
    intro s n _ hn hs
    unfold bytesBuffer
    simp only [id] at hs
    simp only [hs, if_true]
    rw [if_neg (by omega)]
  next_ok := fun _ _ _ => trivial

/-- A list of fetches that are not empty delivers the bytes of the fetches. -/
theorem chunked_delivers : Delivers chunked List.flatten (fun s => ∀ c ∈ s, c ≠ []) where
  fits := by
    intro s n _
    unfold chunked
    cases s with
    | nil => simp
    | cons c cs =>
      simp only []
      split_ifs with h
      · exact h
      · simp only [List.length_take]
        omega
  split := by
    intro s n _
    unfold chunked
    cases s with
    | nil => simp
    | cons c cs =>
      simp only []
      split_ifs with h
      · simp
      · simp only [List.flatten_cons]
        rw [← List.append_assoc, List.take_append_drop]
  progress := by
    intro s n hs hn hc
    unfold chunked
    cases s with
    | nil => simp at hc
    | cons c cs =>
      have hcne : c ≠ [] := hs c (List.mem_cons_self _ _)
      simp only []
      split_ifs with h
      · exact hcne
      · cases c with
        | nil => exact absurd rfl hcne
        | cons b c =>
          cases n with
          | zero => omega
          | succ n => simp
  eof := by
    intro s n hs _ hc
    unfold chunked
    cases s with
    | nil => rfl
    | cons c cs =>
      have hcne : c ≠ [] := hs c (List.mem_cons_self _ _)
      simp only [List.flatten_cons, List.append_eq_nil] at hc
      exact absurd hc.1 hcne
  next_ok := by
    intro s n hs
    unfold chunked
    cases s with
    | nil => simp
    | cons c cs =>
      simp only []
      split_ifs with h
      · exact fun x hx => hs x (List.mem_cons_of_mem _ hx)
      · intro x hx
        rcases List.mem_cons.mp hx with hx | hx
        · rw [hx]
          intro hd
          have := congrArg List.length hd
          simp only [List.length_drop, List.length_nil] at this
          omega
        · exact hs x (List.mem_cons_of_mem _ hx)

/-- The refill of a decoder that satisfies the window invariant, from a source that
delivers a finite stream: nothing is lost, and the window invariant holds again. -/
theorem fill_delivers {σ : Type} (content : σ → List Nat) (ok : σ → Prop)
    (src : Source σ) (hsrc : Delivers src content ok) (d : Decoder σ) (hwf : d.WF)
    (hok : ok d.source) :
    ∃ d1, d.fill src = .ok (d1, (src.Read d.source (d.cap - d.unread.length)).err) ∧
      d1.WF ∧ ok d1.source ∧ d1.offset = 0 ∧ d1.pending content = d.pending content ∧
      d1.buffer = d.unread ++ (src.Read d.source (d.cap - d.unread.length)).data := by
  obtain ⟨hwo, hwc, hcap⟩ := hwf
  have hul : d.unread.length = d.buffer.length - d.offset := by
    unfold Decoder.unread
    simp
  have hfits := hsrc.fits d.source (d.cap - d.unread.length) hok
  have hsplit := hsrc.split d.source (d.cap - d.unread.length) hok
  have hok1 := hsrc.next_ok d.source (d.cap - d.unread.length) hok
  rw [hul] at hsplit hok1 hfits ⊢
  have hfe := fill_eq src d hwo hwc hfits
  refine ⟨_, hfe, ⟨Nat.zero_le _, ?_, hcap⟩, hok1, rfl, ?_, rfl⟩
  · simp only [List.length_append, List.length_drop]
    omega
  · unfold Decoder.pending Decoder.unread
    simp only [List.drop_zero]
    rw [List.append_assoc, ← hsplit]

/-- The refill from an in-memory buffer fills the window as far as the input goes. -/
theorem fill_bytesBuffer (d : Decoder (List Nat)) (hwf : d.WF) :
    ∃ d1 e, d.fill bytesBuffer = .ok (d1, e) ∧ d1.WF ∧ d1.offset = 0 ∧
      d1.pending id = d.pending id ∧ d1.buffer = (d.pending id).take bufferSize ∧
      (d.pending id = [] → e = some .EOF) := by
  obtain ⟨d1, hf, hwf1, -, hz, hpend, hbuf⟩ :=
    fill_delivers id (fun _ => True) bytesBuffer bytesBuffer_delivers d hwf trivial
  obtain ⟨hwo, hwc, hcap⟩ := hwf
  have hul : d.unread.length ≤ d.cap := by
    unfold Decoder.unread
    simp only [List.length_drop]
    omega
  refine ⟨d1, _, hf, hwf1, hz, hpend, ?_, ?_⟩
  · rw [hbuf, ← hcap]
    unfold Decoder.pending
    rw [List.take_append_eq_append_take, List.take_of_length_le hul]
    congr 1
    unfold bytesBuffer
    by_cases hs : d.source = []
    · simp [hs]
    · simp [hs]
  · intro hp
    unfold Decoder.pending at hp
    simp only [id, List.append_eq_nil] at hp
    unfold bytesBuffer
    simp only [hp.2, if_true, hp.1, List.length_nil, Nat.sub_zero]
    rw [if_neg (by rw [hcap]; decide)]

theorem take_key (k u : List Nat) (c n : Nat) (h : k.length < n) :
    (k ++ c :: u).take n = k ++ c :: u.take (n - k.length - 1) := by
  rw [List.take_append_eq_append_take, List.take_of_length_le (le_of_lt h)]
  congr 1
  obtain ⟨m, hm⟩ : ∃ m, n - k.length = m + 1 := ⟨n - k.length - 1, by omega⟩
  rw [hm, List.take_succ_cons]
  simp

/-- What is left unconsumed when the offset is set behind the first `i` bytes of a
refilled window. -/
theorem pending_skip {σ : Type} (content : σ → List Nat) (d : Decoder σ) (pre u : List Nat)
    (i : Nat) (hi : i = pre.length)
    (hz : d.offset = 0) (hpend : d.pending content = pre ++ u)
    (hlen : pre.length ≤ d.buffer.length) :
    Decoder.pending content { d with offset := i } = u := by
  subst hi
  unfold Decoder.pending Decoder.unread at hpend ⊢
  rw [hz, List.drop_zero] at hpend
  simp only []
  have h1 : d.buffer = pre ++ d.buffer.drop pre.length := by
    have h2 := congrArg (List.take pre.length) hpend
    rw [List.take_append_of_le_length hlen, List.take_left] at h2
    conv_lhs => rw [← List.take_append_drop pre.length d.buffer, h2]
  rw [h1, List.append_assoc] at hpend
  exact List.append_cancel_left hpend

/-- A fresh value reader at the start of a raw value `v` that is followed by `&` or by
the end of the input. -/
theorem reading_start {σ : Type} (content : σ → List Nat) (ok : σ → Prop) (d : Decoder σ)
    (v after : List Nat) (hwf : d.WF) (hok : ok d.source) (hv : ∀ b ∈ v, b ≠ 38)
    (hpend : (d.pending content = v ∧ after = []) ∨ d.pending content = v ++ 38 :: after) :
    Reading content ok d newValueReader (urlDecode v) after :=
  Reading_live_intro content ok d newValueReader (urlDecode v) after rfl hwf hok
    (by unfold valueReader.WF; exact fun h => absurd rfl h) v hv
    (by unfold valueReader.rest urlDecode; rfl) hpend

theorem decodeFrom_length (v : List Nat) :
    (decodeFrom .Verbatim v).length ≤ v.length ∧
      (decodeFrom .EscapeSeen v).length ≤ v.length + 1 ∧
      ∀ h, (decodeFrom (.EscapeDigit1 h) v).length ≤ v.length + 2 := by
  induction v with
  | nil => simp [decodeFrom]
  | cons b v ih =>
    obtain ⟨h1, h2, h3⟩ := ih
    have h3b := h3 b
    refine ⟨?_, ?_, fun h => ?_⟩
    · simp only [decodeFrom]
      split_ifs <;> simp only [List.length_cons] <;> omega
    · simp only [decodeFrom]
      split_ifs <;> simp only [List.length_cons] <;> omega
    · simp only [decodeFrom]
      split_ifs <;> simp only [List.length_cons] <;> omega

theorem urlDecode_length (v : List Nat) : (urlDecode v).length ≤ v.length :=
  (decodeFrom_length v).1

/-! ## Pairs read from an in-memory buffer -/

/-- `NextPair` on an in-memory buffer whose unconsumed input starts with a key shorter
than the window and `=`. -/
theorem NextPair_bytes_eq (d : Decoder (List Nat)) (hwf : d.WF) (k u : List Nat)
    (hk : ∀ b ∈ k, b ≠ 38 ∧ b ≠ 61) (hklen : k.length < bufferSize)
    (hpend : d.pending id = k ++ 61 :: u) :
    ∃ d1, d.NextPair bytesBuffer
        = .ok { key := k, value := some newValueReader, err := none, d := d1 } ∧
      d1.WF ∧ d1.pending id = u := by
  obtain ⟨d0, e, hf, hwf0, hz, hp0, hb0, -⟩ := fill_bytesBuffer d hwf
  rw [hpend, take_key k u 61 bufferSize hklen] at hb0
  rw [hpend] at hp0
  refine ⟨_, NextPair_eq bytesBuffer d d0 e k _ hf hb0 hk, ⟨?_, hwf0.2.1, hwf0.2.2⟩, ?_⟩
  · simp only [hb0, List.length_append, List.length_cons]
    omega
  · exact pending_skip id d0 (k ++ [61]) u _ (by simp) hz (by simpa using hp0)
      (by simp only [hb0, List.length_append, List.length_cons, List.length_nil]; omega)

/-- `NextPair` on an in-memory buffer whose unconsumed input starts with a key shorter
than the window and `&`: the `&` is left for the value reader. -/
theorem NextPair_bytes_amp (d : Decoder (List Nat)) (hwf : d.WF) (k u : List Nat)
    (hk : ∀ b ∈ k, b ≠ 38 ∧ b ≠ 61) (hklen : k.length < bufferSize)
    (hpend : d.pending id = k ++ 38 :: u) :
    ∃ d1, d.NextPair bytesBuffer
        = .ok { key := k, value := some newValueReader, err := none, d := d1 } ∧
      d1.WF ∧ d1.pending id = 38 :: u := by
  obtain ⟨d0, e, hf, hwf0, hz, hp0, hb0, -⟩ := fill_bytesBuffer d hwf
  rw [hpend, take_key k u 38 bufferSize hklen] at hb0
  rw [hpend] at hp0
  refine ⟨_, NextPair_amp bytesBuffer d d0 e k _ hf hb0 hk, ⟨?_, hwf0.2.1, hwf0.2.2⟩, ?_⟩
  · simp only [hb0, List.length_append, List.length_cons]
    omega
  · exact pending_skip id d0 k (38 :: u) _ rfl hz hp0
      (by simp only [hb0, List.length_append, List.length_cons]; omega)

/-- `NextPair` on an in-memory buffer whose unconsumed input is a key shorter than the
window and nothing else. -/
theorem NextPair_bytes_bare (d : Decoder (List Nat)) (hwf : d.WF) (k : List Nat)
    (hk : ∀ b ∈ k, b ≠ 38 ∧ b ≠ 61) (hklen : k.length < bufferSize) (hne : k ≠ [])
    (hpend : d.pending id = k) :
    ∃ d1, d.NextPair bytesBuffer
        = .ok { key := k, value := some newValueReader, err := none, d := d1 } ∧
      d1.WF ∧ d1.pending id = [] := by
  obtain ⟨d0, e, hf, hwf0, hz, hp0, hb0, -⟩ := fill_bytesBuffer d hwf
  rw [hpend, List.take_of_length_le (le_of_lt hklen)] at hb0
  rw [hpend] at hp0
  subst hb0
  have hend := NextPair_end bytesBuffer d d0 e hf hne hk
  rw [if_pos (by rw [hwf0.2.2]; exact hklen)] at hend
  refine ⟨_, hend, ⟨le_refl _, hwf0.2.1, hwf0.2.2⟩, ?_⟩
  exact pending_skip id d0 d0.buffer [] _ rfl hz (by simpa using hp0) (le_refl _)

/-- `NextPair` on an in-memory buffer when no input is left: no pair and `io.EOF`. -/
theorem NextPair_bytes_done (d : Decoder (List Nat)) (hwf : d.WF)
    (hpend : d.pending id = []) :
    ∃ d1, d.NextPair bytesBuffer
        = .ok { key := [], value := none, err := some .EOF, d := d1 } := by
  obtain ⟨d0, e, hf, hwf0, hz, hp0, hb0, he⟩ := fill_bytesBuffer d hwf
  rw [hpend] at hb0
  rw [he hpend] at hf
  exact ⟨d0, NextPair_empty bytesBuffer d d0 _ hf (by simpa using hb0)⟩

/-- Draining a fresh value reader at the start of a raw value. -/
theorem drain_value {σ : Type} (content : σ → List Nat) (ok : σ → Prop)
    (src : Source σ) (hsrc : Delivers src content ok) (d : Decoder σ)
    (v after : List Nat) (sizes : List Nat) (hwf : d.WF) (hok : ok d.source)
    (hv : ∀ b ∈ v, b ≠ 38) (hsum : v.length < sizes.sum)
    (hpend : (d.pending content = v ∧ after = []) ∨ d.pending content = v ++ 38 :: after) :
    ∃ d1 r1, drain src sizes d newValueReader
        = .ok { data := urlDecode v, eof := true, d := d1, r := r1 } ∧
      d1.WF ∧ ok d1.source ∧ d1.pending content = after := by
  obtain ⟨d1, r1, hd, hwf1, hok1, hp1, -, -⟩ :=
    drain_reading content ok src hsrc d newValueReader (urlDecode v) after sizes
      (lt_of_le_of_lt (urlDecode_length v) hsum)
      (reading_start content ok d v after hwf hok hv hpend)
  exact ⟨d1, r1, hd, hwf1, hok1, hp1⟩

theorem encodePairs_cons (kv : List Nat × List Nat) (rest : List (List Nat × List Nat)) :
    encodePairs (kv :: rest) = kv.1 ++ 61 :: kv.2 ++
      (if rest = [] then [] else 38 :: encodePairs rest) := by
  cases rest with
  | nil => simp [encodePairs]
  | cons kv2 rest => simp [encodePairs]

theorem encodeKeys_cons (k : List Nat) (rest : List (List Nat)) :
    encodeKeys (k :: rest) = k ++ (if rest = [] then [] else 38 :: encodeKeys rest) := by
  cases rest with
  | nil => simp [encodeKeys]
  | cons k2 rest => simp [encodeKeys]

/-- Reading the pairs of `k1=v1&...&kn=vn` from an in-memory buffer. -/
theorem readPairs_bytes (sizes : List Nat) (kvs : List (List Nat × List Nat)) :
    ∀ (d : Decoder (List Nat)), d.WF → d.pending id = encodePairs kvs →
      (∀ kv ∈ kvs, (∀ b ∈ kv.1, b ≠ 38 ∧ b ≠ 61) ∧ kv.1.length < bufferSize ∧
        (∀ b ∈ kv.2, b ≠ 38) ∧ kv.2.length < sizes.sum) →
      ∃ d1, readPairs bytesBuffer sizes kvs.length d
          = .ok { pairs := kvs.map (fun kv => (kv.1, urlDecode kv.2)), err := none,
                  d := d1 } ∧
        d1.WF ∧ d1.pending id = [] := by
  induction kvs with
  | nil =>
    intro d hwf hpend _
    exact ⟨d, rfl, hwf, hpend⟩
  | cons kv rest ih =>
    intro d hwf hpend hkvs
    obtain ⟨hk, hklen, hv, hsum⟩ := hkvs kv (List.mem_cons_self _ _)
    rw [encodePairs_cons, List.append_assoc, List.cons_append] at hpend
    obtain ⟨d1, hnp, hwf1, hp1⟩ := NextPair_bytes_eq d hwf kv.1 _ hk hklen hpend
    obtain ⟨d2, r2, hdr, hwf2, -, hp2⟩ :=
      drain_value id (fun _ => True) bytesBuffer bytesBuffer_delivers d1 kv.2
        (encodePairs rest) sizes hwf1 trivial hv hsum (by
          rw [hp1]
          by_cases hr : rest = []
          · left
            simp [hr, encodePairs]
          · right
            simp [hr])
    obtain ⟨d3, hrp, hwf3, hp3⟩ := ih d2 hwf2 hp2
      (fun x hx => hkvs x (List.mem_cons_of_mem _ hx))
    refine ⟨d3, ?_, hwf3, hp3⟩
    simp only [List.length_cons, readPairs, hnp, hdr, hrp, if_true, List.map_cons]

/-- Reading the pairs of `k1&...&kn` from an in-memory buffer. -/
theorem readPairs_keys (sizes : List Nat) (hsum : 0 < sizes.sum) (ks : List (List Nat)) :
    ∀ (d : Decoder (List Nat)), d.WF → d.pending id = encodeKeys ks →
      (∀ k ∈ ks, (∀ b ∈ k, b ≠ 38 ∧ b ≠ 61) ∧ k.length < bufferSize ∧ k ≠ []) →
      ∃ d1, readPairs bytesBuffer sizes ks.length d
          = .ok { pairs := ks.map (fun k => (k, [])), err := none, d := d1 } ∧
        d1.WF ∧ d1.pending id = [] := by
  induction ks with
  | nil =>
    intro d hwf hpend _
    exact ⟨d, rfl, hwf, hpend⟩
  | cons k rest ih =>
    intro d hwf hpend hks
    obtain ⟨hk, hklen, hne⟩ := hks k (List.mem_cons_self _ _)
    rw [encodeKeys_cons] at hpend
    have hnext : ∃ d1, d.NextPair bytesBuffer
          = .ok { key := k, value := some newValueReader, err := none, d := d1 } ∧
        d1.WF ∧ ((d1.pending id = [] ∧ encodeKeys rest = []) ∨
          d1.pending id = [] ++ 38 :: encodeKeys rest) := by
      by_cases hr : rest = []
      · rw [if_pos hr, List.append_nil] at hpend
        obtain ⟨d1, h1, h2, h3⟩ := NextPair_bytes_bare d hwf k hk hklen hne hpend
        exact ⟨d1, h1, h2, Or.inl ⟨h3, by rw [hr]; rfl⟩⟩
      · rw [if_neg hr] at hpend
        obtain ⟨d1, h1, h2, h3⟩ := NextPair_bytes_amp d hwf k _ hk hklen hpend
        exact ⟨d1, h1, h2, Or.inr h3⟩
    obtain ⟨d1, hnp, hwf1, hp1⟩ := hnext
    obtain ⟨d2, r2, hdr, hwf2, -, hp2⟩ :=
      drain_value id (fun _ => True) bytesBuffer bytesBuffer_delivers d1 []
        (encodeKeys rest) sizes hwf1 trivial (by simp) hsum hp1
    obtain ⟨d3, hrp, hwf3, hp3⟩ := ih d2 hwf2 hp2
      (fun x hx => hks x (List.mem_cons_of_mem _ hx))
    refine ⟨d3, ?_, hwf3, hp3⟩
    simp only [List.length_cons, readPairs, hnp, hdr, hrp, if_true, List.map_cons]
    rfl

theorem NewDecoder_WF {σ : Type} (s : σ) : (NewDecoder s).WF :=
  ⟨le_refl _, Nat.zero_le _, rfl⟩

theorem NewDecoder_pending {σ : Type} (content : σ → List Nat) (s : σ) :
    (NewDecoder s).pending content = content s := rfl

/-! ## The decoding of the specification -/

/-- Bytes that leave the decoder in the state `Verbatim` are decoded on their own. -/
theorem decodeFrom_append (w z : List Nat) :
    ∀ s : DecodeState, stateAfter s w = .Verbatim →
      decodeFrom s (w ++ z) = decodeFrom s w ++ decodeFrom .Verbatim z := by
  induction w with
  | nil =>
    intro s hs
    simp only [stateAfter] at hs
    subst hs
    simp [decodeFrom]
  | cons b w ih =>
    intro s hs
    cases s with
    | Verbatim =>
      simp only [stateAfter] at hs
      simp only [List.cons_append, decodeFrom, List.append_eq]
      by_cases h37 : b = 37
      · simp only [h37, if_true] at hs ⊢
        exact ih _ hs
      · simp only [h37, if_false] at hs ⊢
        rw [ih _ hs]
        split_ifs <;> rfl
    | EscapeSeen =>
      simp only [stateAfter] at hs
      simp only [List.cons_append, decodeFrom, List.append_eq]
      by_cases hx : hexDigit b
      · simp only [hx, if_true] at hs ⊢
        exact ih _ hs
      · simp only [hx, if_false] at hs ⊢
        rw [ih _ hs]
        rfl
    | EscapeDigit1 h =>
      simp only [stateAfter] at hs
      simp only [List.cons_append, decodeFrom, List.append_eq]
      rw [ih _ hs]
      split_ifs <;> rfl

theorem stateAfter_append (w z : List Nat) :
    ∀ s : DecodeState, stateAfter s (w ++ z) = stateAfter (stateAfter s w) z := by
  induction w with
  | nil =>
    intro s
    cases s <;> simp [stateAfter]
  | cons b w ih =>
    intro s
    cases s with
    | Verbatim =>
      simp only [List.cons_append, stateAfter, List.append_eq]
      split_ifs <;> exact ih _
    | EscapeSeen =>
      simp only [List.cons_append, stateAfter, List.append_eq]
      split_ifs <;> exact ih _
    | EscapeDigit1 h =>
      simp only [List.cons_append, stateAfter, List.append_eq]
      exact ih _

/-- Without `%` the decoding replaces every `+` by a space and nothing else. -/
theorem urlDecode_plain (v : List Nat) (hv : ∀ b ∈ v, b ≠ 37) :
    urlDecode v = v.map (fun b => if b = 43 then 32 else b) := by
  unfold urlDecode
  induction v with
  | nil => rfl
  | cons b v ih =>
    have hb := hv b (List.mem_cons_self _ _)
    have ih1 := ih (fun x hx => hv x (List.mem_cons_of_mem _ hx))
    simp only [decodeFrom, hb, if_false, List.map_cons]
    rw [ih1]
    split_ifs <;> rfl

theorem map_plus_id (v : List Nat) (hv : ∀ b ∈ v, b ≠ 43) :
    v.map (fun b => if b = 43 then 32 else b) = v := by
  induction v with
  | nil => rfl
  | cons b v ih =>
    have hb := hv b (List.mem_cons_self _ _)
    simp only [List.map_cons, hb, if_false]
    rw [ih (fun x hx => hv x (List.mem_cons_of_mem _ hx))]

theorem lowerHex_spec (n : Nat) (h : n < 16) :
    hexDigit (lowerHex n) ∧ hexval (lowerHex n) = n ∧ lowerHex n ≠ 38 := by
  unfold lowerHex
  by_cases h10 : n < 10
  · rw [if_pos h10]
    refine ⟨Or.inl ⟨by omega, by omega⟩, ?_, by omega⟩
    unfold hexval
    rw [if_pos ⟨by omega, by omega⟩]
    omega
  · rw [if_neg h10]
    refine ⟨Or.inr (Or.inr ⟨by omega, by omega⟩), ?_, by omega⟩
    unfold hexval
    rw [if_neg (by omega), if_neg (by omega), if_pos ⟨by omega, by omega⟩]
    omega

/-- The decoding of the specification undoes the percent encoding. -/
theorem urlDecode_percentEncode (v : List Nat) (hv : ∀ b ∈ v, b < 256) :
    urlDecode (percentEncode v) = v := by
  unfold urlDecode
  induction v with
  | nil => rfl
  | cons b v ih =>
    have hb := hv b (List.mem_cons_self _ _)
    obtain ⟨h1, h2, -⟩ := lowerHex_spec (b / 16) (by omega)
    obtain ⟨h3, h4, -⟩ := lowerHex_spec (b % 16) (by omega)
    simp only [percentEncode, decodeFrom, if_true, h1, h3, h2, h4]
    rw [ih (fun x hx => hv x (List.mem_cons_of_mem _ hx))]
    congr 1
    omega

theorem percentEncode_no_amp (v : List Nat) (hv : ∀ b ∈ v, b < 256) :
    ∀ c ∈ percentEncode v, c ≠ 38 := by
  induction v with
  | nil => simp [percentEncode]
  | cons b v ih =>
    have hb := hv b (List.mem_cons_self _ _)
    obtain ⟨-, -, h1⟩ := lowerHex_spec (b / 16) (by omega)
    obtain ⟨-, -, h2⟩ := lowerHex_spec (b % 16) (by omega)
    intro c hc
    simp only [percentEncode, List.mem_cons] at hc
    rcases hc with hc | hc | hc | hc
    · omega
    · rw [hc]; exact h1
    · rw [hc]; exact h2
    · exact ih (fun x hx => hv x (List.mem_cons_of_mem _ hx)) c hc

/-- Once reading one byte at a time has met `io.EOF` after `k` bytes, reading any number
of bytes above `k` gives the same. -/
theorem pull_short {σ : Type} (src : Source σ) (n m : Nat) (d : Decoder σ)
    (r : valueReader) (v : Drained σ) (h : pull src n d r = .ok v) (he : v.eof = true)
    (hm : v.data.length < m) : pull src m d r = .ok v := by
  rcases Nat.le_total n m with hnm | hnm
  · exact pull_mono src n m d r v h he hnm
  · rw [show n = m + (n - m) by omega, pull_add] at h
    cases hp : pull src m d r with
    | error e => simp [hp] at h
    | ok v1 =>
      simp only [hp] at h
      by_cases he1 : v1.eof = true
      · simp only [he1, if_true, Except.ok.injEq] at h
        rw [h]
      · have hl := (pull_length src m d r v1 hp).2 (by simpa using he1)
        simp only [he1, Bool.false_eq_true, if_false] at h
        cases hp2 : pull src (n - m) v1.d v1.r with
        | error e => simp [hp2] at h
        | ok rest =>
          simp only [hp2, Except.ok.injEq] at h
          rw [← h] at hm
          simp only [List.length_append] at hm
          omega

/-- The three step functions on `%` and two hex digits: one byte is stored, the byte
the digits stand for, and the reader is back in the default state with nothing to
flush. -/
theorem steps_escape (r : valueReader) (p : List Nat) (offset h l : Nat)
    (hlt : offset < p.length) (hstep : r.step = .defaultStep) (hh : hexDigit h)
    (hl : hexDigit l) :
    ∃ r1 r2 r3, r.step.call r 37 p offset = .ok (r1, p, offset) ∧
      r1.step.call r1 h p offset = .ok (r2, p, offset) ∧
      r2.step.call r2 l p offset
        = .ok (r3, p.set offset (16 * hexval h + hexval l), offset + 1) ∧
      r3.step = .defaultStep ∧ r3.outputBuffer = [] ∧ r3.eof = r.eof := by
  have hh1 := (isHexDigit_iff h).mpr hh
  have hl1 := (isHexDigit_iff l).mpr hl
  have e1 : r.step.call r 37 p offset = .ok
      (⟨r.eof, ⟨37, r.memory.m1, r.memory.m2⟩, [37], .escape, false⟩, p, offset) := by
    rw [hstep]
    simp only [scanStep.call, defaultStep, if_true]
  have e2 : scanStep.call .escape
      ⟨r.eof, ⟨37, r.memory.m1, r.memory.m2⟩, [37], .escape, false⟩ h p offset = .ok
      (⟨r.eof, ⟨37, h, r.memory.m2⟩, [37, h], .escape1, false⟩, p, offset) := by
    simp only [scanStep.call, escape, hh1, if_true]
  have e3 : scanStep.call .escape1
      ⟨r.eof, ⟨37, h, r.memory.m2⟩, [37, h], .escape1, false⟩ l p offset = .ok
      (⟨r.eof, ⟨37, h, l⟩, [], .defaultStep, true⟩,
        p.set offset (16 * hexval h + hexval l), offset + 1) := by
    simp only [scanStep.call, escape1, hl1, if_true,
      hexDecode_hexDigit p offset h l hlt hh hl]
  exact ⟨_, _, _, e1, e2, e3, rfl, rfl, rfl⟩

/-- `NextPair` when the unconsumed input starts with a key and `=` that are in the
window after the refill. -/
theorem NextPair_delivers_eq {σ : Type} (content : σ → List Nat) (ok : σ → Prop)
    (src : Source σ) (hsrc : Delivers src content ok) (d : Decoder σ) (hwf : d.WF)
    (hok : ok d.source) (k u : List Nat) (hk : ∀ b ∈ k, b ≠ 38 ∧ b ≠ 61)
    (hpend : d.pending content = k ++ 61 :: u)
    (harrive : k.length
      < (d.unread ++ (src.Read d.source (d.cap - d.unread.length)).data).length) :
    ∃ d1, d.NextPair src
        = .ok { key := k, value := some newValueReader, err := none, d := d1 } ∧
      d1.WF ∧ ok d1.source ∧ d1.pending content = u := by
  obtain ⟨d0, hf, hwf0, hok0, hz, hp0, hb0⟩ := fill_delivers content ok src hsrc d hwf hok
  rw [← hb0] at harrive
  rw [hpend] at hp0
  have hbuf : d0.buffer = k ++ 61 :: u.take (d0.buffer.length - k.length - 1) := by
    have h1 : d0.buffer = (d0.pending content).take d0.buffer.length := by
      unfold Decoder.pending Decoder.unread
      rw [hz, List.drop_zero, List.take_left]
    rw [hp0, take_key k u 61 _ harrive] at h1
    exact h1
  refine ⟨_, NextPair_eq src d d0 _ k _ hf hbuf hk, ⟨?_, hwf0.2.1, hwf0.2.2⟩, hok0, ?_⟩
  · show k.length + 1 ≤ d0.buffer.length
    omega
  · exact pending_skip content d0 (k ++ [61]) u _ (by simp) hz (by simpa using hp0)
      (by simp only [List.length_append, List.length_cons, List.length_nil]; omega)

/-- `NextPair` on a new decoder whose first fetch holds the key and `=`. -/
theorem NextPair_chunked (k v0 : List Nat) (chunks : List (List Nat))
    (hk : ∀ b ∈ k, b ≠ 38 ∧ b ≠ 61) (hklen : k.length < bufferSize)
    (hchunks : ∀ c ∈ chunks, c ≠ []) :
    ∃ d1, (NewDecoder ((k ++ 61 :: v0) :: chunks)).NextPair chunked
        = .ok { key := k, value := some newValueReader, err := none, d := d1 } ∧
      d1.WF ∧ (∀ c ∈ d1.source, c ≠ []) ∧ d1.pending List.flatten = v0 ++ chunks.flatten := by
  have hok : ∀ c ∈ (k ++ 61 :: v0) :: chunks, c ≠ [] := by
    intro c hc
    rcases List.mem_cons.mp hc with hc | hc
    · rw [hc]
      simp
    · exact hchunks c hc
  have h := NextPair_delivers_eq List.flatten (fun s => ∀ c ∈ s, c ≠ []) chunked
    chunked_delivers (NewDecoder ((k ++ 61 :: v0) :: chunks)) (NewDecoder_WF _) hok k
    (v0 ++ chunks.flatten) hk
    (by rw [NewDecoder_pending]; simp)
    (by
      show k.length < ([] ++ (chunked.Read ((k ++ 61 :: v0) :: chunks)
        (bufferSize - 0)).data).length
      unfold chunked
      simp only [List.nil_append, Nat.sub_zero]
      split_ifs with hfit
      · simp
      · simp only [List.length_take, List.length_append, List.length_cons]
        omega)
  exact h

/-- The first refill of a new decoder from an in-memory buffer whose bytes fit the
window. -/
theorem fill_new_bytes (s : List Nat) (hs : s ≠ []) (hlen : s.length ≤ bufferSize) :
    (NewDecoder s).fill bytesBuffer
      = .ok ({ source := [], buffer := s, cap := bufferSize, offset := 0 }, none) := by
  have h := fill_eq bytesBuffer (NewDecoder s) (le_refl _) (Nat.zero_le _)
    (bytesBuffer_delivers.fits _ _ trivial)
  rw [h]
  simp only [NewDecoder, bytesBuffer, hs, if_false, List.length_nil, Nat.sub_zero,
    List.drop_nil, List.nil_append, List.take_of_length_le hlen,
    List.drop_of_length_le hlen]

/-! ## The end of a value at `&` -/

/-- The next byte when something is to be flushed: the first byte of the output
buffer. -/
theorem nextByte_flush {σ : Type} (src : Source σ) (d : Decoder σ) (r : valueReader)
    (b : Nat) (rest : List Nat) (hf : r.flush = true ∨ r.eof = true)
    (hob : r.outputBuffer = b :: rest) :
    nextByte src d r = .ok (some b, d, { r with outputBuffer := rest }) := by
  have hb : readBody src d r [0] 0
      = .ok (.next d { r with outputBuffer := rest } [b] 1) := by
    unfold readBody
    rw [if_pos ⟨hf, by rw [hob]; simp⟩, hob]
    simp [store]
  rw [nextByte_eq, hb]
  simp

/-- The next byte at the end of a value with nothing to flush: `io.EOF`. -/
theorem nextByte_end {σ : Type} (src : Source σ) (d : Decoder σ) (r : valueReader)
    (he : r.eof = true) (hob : r.outputBuffer = []) :
    nextByte src d r = .ok (none, d, r) := by
  have hb : readBody src d r [0] 0
      = .ok (.done { n := 0, err := some .EOF, p := [0], d := d, r := r }) := by
    unfold readBody
    rw [if_neg (by rw [hob]; simp), if_neg (by simp [he]), if_pos he]
  rw [nextByte_eq, hb]

/-- When nothing is to be flushed and the next byte of the window is `&`, the byte is
consumed, the reader is at the end of the value, and nothing else changes. -/
theorem nextByte_amp {σ : Type} (src : Source σ) (d : Decoder σ) (r : valueReader)
    (he : r.eof = false) (hnf : r.flush = true → r.outputBuffer = [])
    (hin : d.buffer[d.offset]? = some 38) :
    nextByte src d r
      = nextByte src { d with offset := d.offset + 1 } { r with eof := true } := by
  have hlt : d.offset < d.buffer.length := by
    rcases Nat.lt_or_ge d.offset d.buffer.length with hl | hl
    · exact hl
    · rw [List.getElem?_eq_none hl] at hin
      simp at hin
  have hb : readBody src d r [0] 0
      = .ok (.next { d with offset := d.offset + 1 } { r with eof := true } [0] 0) := by
    unfold readBody
    rw [if_neg (by
      rintro ⟨h1 | h1, h2⟩
      · rw [hnf h1] at h2
        simp at h2
      · rw [he] at h1
        simp at h1),
      if_neg (by rintro ⟨-, h2⟩; omega), if_neg (by simp [he]), hin]
    simp
  rw [nextByte_eq, hb]
  simp

/-- Reading one byte at a time from a reader that is at the end of its value gives what
is left in the output buffer and consumes no input. -/
theorem pull_eof {σ : Type} (src : Source σ) (d : Decoder σ) (n : Nat) :
    ∀ r : valueReader, r.eof = true →
      pull src n d r = .ok
        { data := r.outputBuffer.take n, eof := decide (r.outputBuffer.length < n),
          d := d, r := { r with outputBuffer := r.outputBuffer.drop n } } := by
  induction n with
  | zero =>
    intro r _
    simp [pull]
  | succ n ih =>
    intro r he
    rw [pull]
    cases hob : r.outputBuffer with
    | nil =>
      rw [nextByte_end src d r he hob]
      cases r
      simp_all
    | cons b rest =>
      rw [nextByte_flush src d r b rest (Or.inr he) hob]
      simp only []
      rw [ih { r with outputBuffer := rest } he]
      simp

/-- Reading one byte at a time when the next byte of the window is `&`: the output
buffer is flushed, the `&` is consumed, and the reader is at the end of the value. -/
theorem pull_amp {σ : Type} (src : Source σ) (d : Decoder σ)
    (hin : d.buffer[d.offset]? = some 38) (ob : List Nat) :
    ∀ (r : valueReader) (n : Nat), r.eof = false → r.outputBuffer = ob → ob.length < n →
      pull src n d r = .ok
        { data := ob, eof := true, d := { d with offset := d.offset + 1 },
          r := { r with eof := true, outputBuffer := [] } } := by
  have hlast : ∀ (r : valueReader) (n : Nat), r.eof = false →
      (r.flush = true → r.outputBuffer = []) → r.outputBuffer.length < n →
      pull src n d r = .ok
        { data := r.outputBuffer, eof := true, d := { d with offset := d.offset + 1 },
          r := { r with eof := true, outputBuffer := [] } } := by
    intro r n he hnf hn
    obtain ⟨m, hm⟩ : ∃ m, n = m + 1 := ⟨n - 1, by omega⟩
    subst hm
    have h1 := pull_eof src { d with offset := d.offset + 1 } (m + 1)
      { r with eof := true } rfl
    rw [pull] at h1 ⊢
    have ht : r.outputBuffer.take (m + 1) = r.outputBuffer :=
      List.take_of_length_le (by omega)
    have hd : r.outputBuffer.drop (m + 1) = [] := List.drop_of_length_le (by omega)
    rw [nextByte_amp src d r he hnf hin, h1]
    simp [ht, hd, hn]
  induction ob with
  | nil =>
    intro r n he hob hn
    have := hlast r n he (fun _ => hob) (by rw [hob]; exact hn)
    rw [hob] at this
    exact this
  | cons b rest ih =>
    intro r n he hob hn
    by_cases hf : r.flush = true
    · obtain ⟨m, hm⟩ : ∃ m, n = m + 1 := ⟨n - 1, by omega⟩
      subst hm
      rw [pull, nextByte_flush src d r b rest (Or.inl hf) hob]
      simp only []
      rw [ih { r with outputBuffer := rest } m he rfl
        (by simp only [List.length_cons] at hn; omega)]
    · have := hlast r n he (fun h => absurd h hf) (by rw [hob]; exact hn)
      rw [hob] at this
      exact this

/-! ## No panic and no end of the budget -/

/-- The refill of a decoder that satisfies the window invariant, from a source that
returns no more bytes than it is asked for, succeeds and keeps the invariant. -/
theorem fill_safe {σ : Type} (src : Source σ)
    (hfits : ∀ s n, (src.Read s n).data.length ≤ n) (d : Decoder σ) (hwf : d.WF) :
    ∃ d1 e, d.fill src = .ok (d1, e) ∧ d1.WF := by
  obtain ⟨hwo, hwc, hcap⟩ := hwf
  have hfit := hfits d.source (d.cap - (d.buffer.length - d.offset))
  refine ⟨_, _, fill_eq src d hwo hwc hfit, Nat.zero_le _, ?_, hcap⟩
  simp only [List.length_append, List.length_drop]
  omega

/-- A turn of the loop of `Read` on a decoder that satisfies the window invariant does
not panic, and the decoder satisfies the invariant afterwards. -/
theorem readBody_safe {σ : Type} (src : Source σ)
    (hfits : ∀ s n, (src.Read s n).data.length ≤ n) (d : Decoder σ) (r : valueReader)
    (p : List Nat) (offset : Nat) (hwf : d.WF) (hlt : offset < p.length) :
    (∃ d1 r1 p1 offset1, readBody src d r p offset = .ok (.next d1 r1 p1 offset1) ∧ d1.WF) ∨
      readBody src d r p offset
        = .ok (.done { n := offset, err := some .EOF, p := p, d := d, r := r }) := by
  unfold readBody
  split_ifs with hflush hfill heof
  · cases hob : r.outputBuffer with
    | nil => simp [hob] at hflush
    | cons b rest =>
      left
      simp only [store, hlt, if_true]
      exact ⟨d, _, _, _, rfl, hwf⟩
  · obtain ⟨d1, e, hf, hwf1⟩ := fill_safe src hfits d hwf
    left
    rw [hf]
    exact ⟨d1, _, _, _, rfl, hwf1⟩
  · right
    rfl
  · have he : r.eof = false := by simpa using heof
    have hne : d.offset ≠ d.buffer.length := fun hx => hfill ⟨he, hx⟩
    obtain ⟨hwo, hwc, hcap⟩ := hwf
    have hdlt : d.offset < d.buffer.length := by omega
    have hwf1 : Decoder.WF { d with offset := d.offset + 1 } := ⟨hdlt, hwc, hcap⟩
    left
    rw [List.getElem?_eq_getElem hdlt]
    simp only []
    by_cases h38 : d.buffer[d.offset] = 38
    · rw [if_pos h38]
      exact ⟨_, _, _, _, rfl, hwf1⟩
    · rw [if_neg h38]
      cases hs : r.step with
      | defaultStep =>
        simp only [scanStep.call, defaultStep]
        by_cases h37 : d.buffer[d.offset] = 37
        · rw [if_pos h37]
          exact ⟨_, _, _, _, rfl, hwf1⟩
        · rw [if_neg h37]
          simp only [store, hlt, if_true]
          exact ⟨_, _, _, _, rfl, hwf1⟩
      | escape =>
        simp only [scanStep.call, escape]
        split_ifs
        · exact ⟨_, _, _, _, rfl, hwf1⟩
        · exact ⟨_, _, _, _, rfl, hwf1⟩
      | escape1 =>
        simp only [scanStep.call, escape1]
        split_ifs
        · simp only [hexDecode, hlt, if_true]
          cases fromHexChar r.memory.m1 with
          | none => exact ⟨_, _, _, _, rfl, hwf1⟩
          | some a =>
            cases fromHexChar d.buffer[d.offset] with
            | none => exact ⟨_, _, _, _, rfl, hwf1⟩
            | some c => exact ⟨_, _, _, _, rfl, hwf1⟩
        · exact ⟨_, _, _, _, rfl, hwf1⟩

/-- The loop of `Read` on a decoder that satisfies the window invariant, with a budget
above the bound on its turns, returns: it does not use up the budget and does not
panic; the count it returns is between the offset it starts at and the length of the
destination, the error is nil or `io.EOF`, and the decoder satisfies the invariant. -/
theorem readLoop_safe {σ : Type} (src : Source σ)
    (hfits : ∀ s n, (src.Read s n).data.length ≤ n) (f : Nat) :
    ∀ (d : Decoder σ) (r : valueReader) (p : List Nat) (offset : Nat),
      d.WF → offset ≤ p.length → turnBound d r p offset < f →
      ∃ res, readLoop src f d r p offset = .ok res ∧ res.d.WF ∧ offset ≤ res.n ∧
        res.n ≤ p.length ∧ res.p.length = p.length ∧
        (res.err = none ∨ res.err = some .EOF) := by
  induction f with
  | zero => intro d r p offset _ _ h; omega
  | succ f ih =>
    intro d r p offset hwf hle hb
    rw [readLoop]
    by_cases hlt : offset < p.length
    · rw [if_pos hlt]
      rcases readBody_safe src hfits d r p offset hwf hlt with
        ⟨d1, r1, p1, offset1, hbody, hwf1⟩ | hbody
      · obtain ⟨hlen, ho1, ho2, hdec, -⟩ :=
          readBody_next src d d1 r r1 p p1 offset offset1 hlt hbody
        rw [hbody]
        simp only []
        obtain ⟨res, hres, h1, h2, h3, h4, h5⟩ :=
          ih d1 r1 p1 offset1 hwf1 (by omega) (by omega)
        exact ⟨res, hres, h1, by omega, by omega, by omega, h5⟩
      · rw [hbody]
        exact ⟨_, rfl, hwf, le_refl _, hle, rfl, Or.inr rfl⟩
    · rw [if_neg hlt]
      exact ⟨_, rfl, hwf, le_refl _, hle, rfl, Or.inl rfl⟩

/-- `Read` on a decoder that satisfies the window invariant returns, for every reader
state and every destination. -/
theorem Read_safe {σ : Type} (src : Source σ)
    (hfits : ∀ s n, (src.Read s n).data.length ≤ n) (d : Decoder σ) (r : valueReader)
    (p : List Nat) (hwf : d.WF) :
    ∃ res, valueReader.Read src d r p = .ok res ∧ res.d.WF ∧ res.n ≤ p.length ∧
      res.p.length = p.length ∧ (res.err = none ∨ res.err = some .EOF) := by
  obtain ⟨res, h, h1, -, h3, h4, h5⟩ := readLoop_safe src hfits (9 * p.length + 9) d r p 0
    hwf (Nat.zero_le _) (by
      have := turnRank_le d r
      simp only [turnBound, Nat.sub_zero]
      omega)
  exact ⟨res, h, h1, h3, h4, h5⟩

/-! ## The loop of `NextPair` in general -/

/-- The loop of `NextPair`, with a budget above the number of bytes to scan, either
returns a key that is shorter than the window, with a value reader and no error, or
runs to the end of the window; the window is not changed. -/
theorem scanLoop_result {σ : Type} (fuel : Nat) :
    ∀ (d : Decoder σ), d.offset ≤ d.buffer.length → d.buffer.length - d.offset < fuel →
      (∃ res, scanLoop fuel d = .ok (.inl res) ∧ res.err = none ∧
        res.value = some newValueReader ∧ res.key.length < d.buffer.length ∧
        res.d.buffer = d.buffer ∧ res.d.cap = d.cap ∧
        res.d.offset ≤ d.buffer.length) ∨
      scanLoop fuel d = .ok (.inr { d with offset := d.buffer.length }) := by
  induction fuel with
  | zero => intro d _ h; omega
  | succ fuel ih =>
    intro d hoff hfuel
    rw [scanLoop]
    by_cases hlt : d.offset < d.buffer.length
    · rw [if_pos hlt, List.getElem?_eq_getElem hlt]
      simp only []
      by_cases h38 : d.buffer[d.offset] = 38
      · rw [if_pos h38]
        left
        refine ⟨_, rfl, rfl, rfl, ?_, rfl, rfl, hoff⟩
        simp only [List.length_take]
        omega
      · rw [if_neg h38]
        by_cases h61 : d.buffer[d.offset] = 61
        · rw [if_pos h61]
          left
          refine ⟨_, rfl, rfl, rfl, ?_, rfl, rfl, hlt⟩
          simp only [List.length_take]
          omega
        · rw [if_neg h61]
          exact ih { d with offset := d.offset + 1 } hlt (by simp only []; omega)
    · rw [if_neg hlt]
      right
      have : d.offset = d.buffer.length := by omega
      cases d
      simp_all

/-- A key that `NextPair` returns with a nil error is shorter than the capacity of the
window. -/
theorem NextPair_key_bound {σ : Type} (src : Source σ) (d : Decoder σ)
    (res : PairResult σ) (h : d.NextPair src = .ok res) (herr : res.err = none) :
    res.key.length < d.cap ∨ (res.key = [] ∧ res.value = none) := by
  unfold Decoder.NextPair at h
  cases hf : d.fill src with
  | error e => simp [hf] at h
  | ok v =>
    obtain ⟨d1, e⟩ := v
    obtain ⟨hz, hcap, hlen⟩ := fill_shape src d d1 e hf
    simp only [hf] at h
    by_cases hb : d1.buffer.length = 0
    · rw [if_pos hb] at h
      simp only [Except.ok.injEq] at h
      subst h
      exact Or.inr ⟨rfl, rfl⟩
    · rw [if_neg hb] at h
      rcases scanLoop_result (d1.buffer.length - d1.offset + 1) d1 (by omega) (by omega)
        with ⟨res1, hs, -, -, hk, -, -, -⟩ | hs
      · rw [hs] at h
        simp only [Except.ok.injEq] at h
        subst h
        left
        omega
      · rw [hs] at h
        simp only [] at h
        by_cases hc : d1.buffer.length < d1.cap
        · rw [if_pos hc] at h
          simp only [Except.ok.injEq] at h
          subst h
          left
          simp only []
          omega
        · rw [if_neg hc] at h
          simp only [Except.ok.injEq] at h
          subst h
          simp at herr

/-- `NextPair` on a decoder that satisfies the window invariant, from a source that
returns no more bytes than it is asked for, returns, and the decoder satisfies the
invariant afterwards. -/
theorem NextPair_safe {σ : Type} (src : Source σ)
    (hfits : ∀ s n, (src.Read s n).data.length ≤ n) (d : Decoder σ) (hwf : d.WF) :
    ∃ res, d.NextPair src = .ok res ∧ res.d.WF := by
  obtain ⟨d1, e, hf, hwf1⟩ := fill_safe src hfits d hwf
  obtain ⟨hwo, hwc, hcap⟩ := hwf1
  unfold Decoder.NextPair
  rw [hf]
  simp only []
  by_cases hb : d1.buffer.length = 0
  · rw [if_pos hb]
    exact ⟨_, rfl, hwo, hwc, hcap⟩
  · rw [if_neg hb]
    rcases scanLoop_result (d1.buffer.length - d1.offset + 1) d1 hwo (by omega)
      with ⟨res1, hs, -, -, -, hbuf, hc, ho⟩ | hs
    · rw [hs]
      exact ⟨res1, rfl, by rw [hbuf]; exact ho, by rw [hbuf, hc]; exact hwc,
        by rw [hc]; exact hcap⟩
    · rw [hs]
      simp only []
      split_ifs
      · exact ⟨_, rfl, le_refl _, hwc, hcap⟩
      · exact ⟨_, rfl, le_refl _, hwc, hcap⟩

/-! ## The key as raw bytes -/

theorem dropWhile_head (q : Nat → Bool) (l u : List Nat) (c : Nat)
    (h : l.dropWhile q = c :: u) : q c = false := by
  induction l with
  | nil => simp at h
  | cons a l ih =>
    rw [List.dropWhile_cons] at h
    by_cases ha : q a = true
    · rw [if_pos ha] at h
      exact ih h
    · rw [if_neg ha] at h
      simp only [List.cons.injEq] at h
      rw [← h.1]
      simpa using ha

theorem keyByte_false (c : Nat) (h : keyByte c = false) : c = 61 ∨ c = 38 := by
  unfold keyByte at h
  simp only [decide_eq_false_iff_not] at h
  omega

theorem keyByte_true (c : Nat) (h : keyByte c = true) : c ≠ 38 ∧ c ≠ 61 := by
  unfold keyByte at h
  simp only [decide_eq_true_eq] at h
  omega

/-- `NextPair` on an in-memory buffer returns as key the unconsumed input up to its
first `=` or `&`, byte for byte, when these bytes are fewer than the window holds. -/
theorem NextPair_bytes_key (d : Decoder (List Nat)) (hwf : d.WF) (inp : List Nat)
    (hne : inp ≠ []) (hklen : (inp.takeWhile keyByte).length < bufferSize)
    (hpend : d.pending id = inp) :
    ∃ d1, d.NextPair bytesBuffer
        = .ok { key := inp.takeWhile keyByte, value := some newValueReader, err := none,
                d := d1 } ∧
      d1.WF := by
  have hk : ∀ b ∈ inp.takeWhile keyByte, b ≠ 38 ∧ b ≠ 61 :=
    fun b hb => keyByte_true b (List.mem_takeWhile_imp hb)
  have hsplit : inp = inp.takeWhile keyByte ++ inp.dropWhile keyByte :=
    (List.takeWhile_append_dropWhile keyByte inp).symm
  cases hrest : inp.dropWhile keyByte with
  | nil =>
    rw [hrest, List.append_nil] at hsplit
    obtain ⟨d1, h1, h2, -⟩ := NextPair_bytes_bare d hwf _ hk hklen
      (by rw [← hsplit]; exact hne) (by rw [← hsplit]; exact hpend)
    exact ⟨d1, h1, h2⟩
  | cons c u =>
    rw [hrest] at hsplit
    rcases keyByte_false c (dropWhile_head keyByte inp u c hrest) with hc | hc
    · subst hc
      obtain ⟨d1, h1, h2, -⟩ := NextPair_bytes_eq d hwf _ u hk hklen
        (by rw [← hsplit]; exact hpend)
      exact ⟨d1, h1, h2⟩
    · subst hc
      obtain ⟨d1, h1, h2, -⟩ := NextPair_bytes_amp d hwf _ u hk hklen
        (by rw [← hsplit]; exact hpend)
      exact ⟨d1, h1, h2⟩

/-- When the window is empty after the refill from a source that delivers a finite
stream, the source is exhausted and the refill has reported `io.EOF`. -/
theorem fill_empty_eof {σ : Type} (content : σ → List Nat) (ok : σ → Prop)
    (src : Source σ) (hsrc : Delivers src content ok) (d d1 : Decoder σ)
    (e : Option Error) (hwf : d.WF) (hok : ok d.source)
    (hf : d.fill src = .ok (d1, e)) (hb : d1.buffer = []) : e = some .EOF := by
  obtain ⟨d0, hf0, -, -, -, -, hb0⟩ := fill_delivers content ok src hsrc d hwf hok
  rw [hf0] at hf
  simp only [Except.ok.injEq, Prod.mk.injEq] at hf
  obtain ⟨hd, he⟩ := hf
  subst hd
  rw [hb0, List.append_eq_nil] at hb
  obtain ⟨hu, hdata⟩ := hb
  rw [hu, List.length_nil, Nat.sub_zero] at hdata he
  have hpos : 0 < d.cap := by rw [hwf.2.2]; decide
  have hc : content d.source = [] := by
    by_contra hcne
    exact hsrc.progress d.source d.cap hok hpos hcne hdata
  rw [← he]
  exact hsrc.eof d.source d.cap hok hpos hc

/-! ## The key and the refilled window -/

/-- The first bytes of a list that satisfy `q`, when they are fewer than `n`, are those
of its first `n` bytes. -/
theorem takeWhile_take (q : Nat → Bool) :
    ∀ (l : List Nat) (n : Nat), (l.takeWhile q).length < n →
      (l.take n).takeWhile q = l.takeWhile q := by
  intro l
  induction l with
  | nil => intro n _; simp
  | cons a l ih =>
    intro n h
    cases n with
    | zero => omega
    | succ n =>
      rw [List.take_succ_cons, List.takeWhile_cons, List.takeWhile_cons]
      by_cases ha : q a = true
      · rw [List.takeWhile_cons, if_pos ha, List.length_cons] at h
        rw [if_pos ha, if_pos ha, ih n (by omega)]
      · rw [if_neg ha, if_neg ha]

/-- The key `NextPair` returns with a nil error is the part of the refilled window
before its first `=` or `&`, or all of the window; and when that part is shorter than
the capacity and the window is not empty, `NextPair` returns a key, a value reader and
a nil error. -/
theorem NextPair_window_key {σ : Type} (src : Source σ) (d d1 : Decoder σ)
    (e : Option Error) (hf : d.fill src = .ok (d1, e)) :
    ∃ res, d.NextPair src = .ok res ∧
      (res.err = none → res.key = d1.buffer.takeWhile keyByte) ∧
      (d1.buffer ≠ [] → (d1.buffer.takeWhile keyByte).length < d1.cap →
        res.err = none ∧ res.value = some newValueReader) := by
  by_cases hb : d1.buffer = []
  · refine ⟨_, NextPair_empty src d d1 e hf hb, ?_, fun h => absurd hb h⟩
    intro _
    rw [hb]
    rfl
  · have hk : ∀ b ∈ d1.buffer.takeWhile keyByte, b ≠ 38 ∧ b ≠ 61 :=
      fun b hb => keyByte_true b (List.mem_takeWhile_imp hb)
    have hsplit : d1.buffer = d1.buffer.takeWhile keyByte ++ d1.buffer.dropWhile keyByte :=
      (List.takeWhile_append_dropWhile keyByte d1.buffer).symm
    cases hrest : d1.buffer.dropWhile keyByte with
    | nil =>
      rw [hrest, List.append_nil] at hsplit
      have hall : ∀ b ∈ d1.buffer, b ≠ 38 ∧ b ≠ 61 := by
        intro b hb
        rw [hsplit] at hb
        exact hk b hb
      refine ⟨_, NextPair_end src d d1 e hf hb hall, ?_, ?_⟩
      · intro herr
        by_cases hlt : d1.buffer.length < d1.cap
        · rw [if_pos hlt]
          exact hsplit
        · rw [if_neg hlt] at herr
          exact absurd herr (by simp)
      · intro _ hlen
        rw [← hsplit] at hlen
        rw [if_pos hlen]
        exact ⟨rfl, rfl⟩
    | cons c u =>
      rw [hrest] at hsplit
      rcases keyByte_false c (dropWhile_head keyByte d1.buffer u c hrest) with hc | hc
      · subst hc
        exact ⟨_, NextPair_eq src d d1 e _ u hf hsplit hk, fun _ => rfl,
          fun _ _ => ⟨rfl, rfl⟩⟩
      · subst hc
        exact ⟨_, NextPair_amp src d d1 e _ u hf hsplit hk, fun _ => rfl,
          fun _ _ => ⟨rfl, rfl⟩⟩

/-! ## The claims of the specification -/

/-- C1. For every list of pairs `(k1,v1)..(kn,vn)` whose keys contain no `=` and no `&`
and are shorter than 1024 bytes and whose raw values contain no `&`, reading `n` pairs
from an in-memory buffer that holds `k1=v1&...&kn=vn`, each value drained to `io.EOF`
(by `Read` calls with destinations of any positive sizes, more calls than the raw
value has bytes) before the next `NextPair`, gives the keys in order, each with the
decoding of its raw value, without error; the next `NextPair` returns no pair and
`io.EOF`. -/
theorem pairs_in_order (kvs : List (List Nat × List Nat)) (sizes : List Nat)
    (hkeys : ∀ kv ∈ kvs, (∀ b ∈ kv.1, b ≠ 61 ∧ b ≠ 38) ∧ kv.1.length < 1024)
    (hvals : ∀ kv ∈ kvs, ∀ b ∈ kv.2, b ≠ 38)
    (hpos : ∀ s ∈ sizes, 0 < s)
    (hcalls : ∀ kv ∈ kvs, kv.2.length < sizes.length) :
    ∃ d1 d2, readPairs bytesBuffer sizes kvs.length (NewDecoder (encodePairs kvs))
        = .ok { pairs := kvs.map (fun kv => (kv.1, urlDecode kv.2)), err := none,
                d := d1 } ∧
      d1.NextPair bytesBuffer
        = .ok { key := [], value := none, err := some .EOF, d := d2 } := by
  have hlen := length_le_sum sizes hpos
  obtain ⟨d1, h1, hwf1, hp1⟩ := readPairs_bytes sizes kvs (NewDecoder (encodePairs kvs))
    (NewDecoder_WF _) (NewDecoder_pending id _)
    (fun kv hkv => ⟨fun b hb => ⟨((hkeys kv hkv).1 b hb).2, ((hkeys kv hkv).1 b hb).1⟩,
      (hkeys kv hkv).2, hvals kv hkv, lt_of_lt_of_le (hcalls kv hkv) hlen⟩)
  obtain ⟨d2, h2⟩ := NextPair_bytes_done d1 hwf1 hp1
  exact ⟨d1, d2, h1, h2⟩

/-- C2. Round trip: for every byte sequence `v` of any length, `NextPair` on an in-memory
buffer that holds `a=` followed by the percent encoding of `v` (every byte as `%` and
its two lower-case hex digits) returns the key `a`, and draining the value reader to
`io.EOF` gives exactly `v`. -/
theorem round_trip (v : List Nat) (sizes : List Nat) (hv : ∀ b ∈ v, b < 256)
    (hpos : ∀ s ∈ sizes, 0 < s) (hcalls : v.length < sizes.length) :
    ∃ d1 d2 r2, (NewDecoder (97 :: 61 :: percentEncode v)).NextPair bytesBuffer
        = .ok { key := [97], value := some newValueReader, err := none, d := d1 } ∧
      drain bytesBuffer sizes d1 newValueReader
        = .ok { data := v, eof := true, d := d2, r := r2 } := by
  have hlen := length_le_sum sizes hpos
  obtain ⟨d1, h1, hwf1, hp1⟩ := NextPair_bytes_eq (NewDecoder (97 :: 61 :: percentEncode v))
    (NewDecoder_WF _) [97] (percentEncode v) (by simp) (by simp [bufferSize])
    (NewDecoder_pending id _)
  have hread := reading_start id (fun _ => True) d1 (percentEncode v) [] hwf1 trivial
    (percentEncode_no_amp v hv) (Or.inl ⟨hp1, rfl⟩)
  rw [urlDecode_percentEncode v hv] at hread
  obtain ⟨d2, r2, h2, -⟩ := drain_reading id (fun _ => True) bytesBuffer
    bytesBuffer_delivers d1 newValueReader v [] sizes (by omega) hread
  exact ⟨d1, d2, r2, h1, h2⟩

/-- C3. For all hex digits `h` and `l` (each one of `0-9`, `a-f`, `A-F`), a value reader
in the default state that is stepped with the three bytes `%`, `h`, `l` stores nothing
for `%` and `h` and stores exactly one byte for `l`, the byte `16*hexval(h) + hexval(l)`,
at `p[offset]`; afterwards it is in the default state again and its output buffer is
empty, so none of the three bytes is flushed literally. -/
theorem escape_decodes (r : valueReader) (p : List Nat) (offset h l : Nat)
    (hlt : offset < p.length) (hstep : r.step = .defaultStep) (hh : hexDigit h)
    (hl : hexDigit l) :
    ∃ r1 r2 r3, r.step.call r 37 p offset = .ok (r1, p, offset) ∧
      r1.step.call r1 h p offset = .ok (r2, p, offset) ∧
      r2.step.call r2 l p offset
        = .ok (r3, p.set offset (16 * hexval h + hexval l), offset + 1) ∧
      r3.step = .defaultStep ∧ r3.outputBuffer = [] ∧ r3.eof = r.eof :=
  steps_escape r p offset h l hlt hstep hh hl

/-- C4. For every raw value `v` without `%` and `&` (it may contain `=`) that is followed
by `&` or by the end of the input, and every source that delivers the input in fetches
that are not empty, draining a new value reader gives `v` with every `+` replaced by a
space and every other byte unchanged; when `v` has no `+` either it gives `v` itself. -/
theorem plain_value {σ : Type} (content : σ → List Nat) (ok : σ → Prop) (src : Source σ)
    (d : Decoder σ) (v after sizes : List Nat) (hsrc : Delivers src content ok)
    (hwf : d.WF) (hok : ok d.source) (hv : ∀ b ∈ v, b ≠ 37 ∧ b ≠ 38)
    (hpend : (d.pending content = v ∧ after = []) ∨ d.pending content = v ++ 38 :: after)
    (hpos : ∀ s ∈ sizes, 0 < s) (hcalls : v.length < sizes.length) :
    ∃ d1 r1, drain src sizes d newValueReader
        = .ok { data := v.map (fun b => if b = 43 then 32 else b), eof := true,
                d := d1, r := r1 } ∧
      ((∀ b ∈ v, b ≠ 43) → drain src sizes d newValueReader
        = .ok { data := v, eof := true, d := d1, r := r1 }) := by
  have hlen := length_le_sum sizes hpos
  obtain ⟨d1, r1, h1, -⟩ := drain_value content ok src hsrc d v after sizes hwf hok
    (fun b hb => (hv b hb).2) (by omega) hpend
  rw [urlDecode_plain v (fun b hb => (hv b hb).1)] at h1
  refine ⟨d1, r1, h1, fun hplus => ?_⟩
  rw [h1, map_plus_id v hplus]

/-- C5. An incomplete escape at the end of a value is flushed literally: when the raw
value is `w` followed by `%`, or by `%` and one hex digit, where `w` leaves the decoder
in the state `Verbatim` (so that the value ends in the state `EscapeSeen` or
`EscapeDigit1`), and the value ends at `&` or at the end of the input, then draining a
new value reader gives the decoding of `w` followed by the pending bytes (`%`, or `%`
and the digit), in this order, before `io.EOF`; the cursor is then behind the `&`. -/
theorem trailing_escape_flushed {σ : Type} (content : σ → List Nat) (ok : σ → Prop)
    (src : Source σ) (d : Decoder σ) (w tail after sizes : List Nat)
    (hsrc : Delivers src content ok) (hwf : d.WF) (hok : ok d.source)
    (hw : ∀ b ∈ w, b ≠ 38) (hstate : stateAfter .Verbatim w = .Verbatim)
    (htail : tail = [37] ∨ ∃ h, hexDigit h ∧ tail = [37, h])
    (hpend : (d.pending content = w ++ tail ∧ after = []) ∨
      d.pending content = (w ++ tail) ++ 38 :: after)
    (hpos : ∀ s ∈ sizes, 0 < s) (hcalls : (w ++ tail).length < sizes.length) :
    (stateAfter .Verbatim (w ++ tail) = .EscapeSeen ∨
      ∃ h, stateAfter .Verbatim (w ++ tail) = .EscapeDigit1 h) ∧
    ∃ d1 r1, drain src sizes d newValueReader
        = .ok { data := urlDecode w ++ tail, eof := true, d := d1, r := r1 } ∧
      d1.pending content = after := by
  have hlen := length_le_sum sizes hpos
  have htail38 : ∀ b ∈ tail, b ≠ 38 := by
    rcases htail with ht | ⟨h, hh, ht⟩
    · rw [ht]
      simp
    · rw [ht]
      intro b hb
      simp only [List.mem_cons, List.mem_singleton, List.not_mem_nil, or_false] at hb
      unfold hexDigit at hh
      rcases hb with hb | hb <;> omega
  have hdec : urlDecode (w ++ tail) = urlDecode w ++ tail := by
    unfold urlDecode
    rw [decodeFrom_append w tail .Verbatim hstate]
    congr 1
    rcases htail with ht | ⟨h, hh, ht⟩
    · rw [ht]
      simp [decodeFrom]
    · rw [ht]
      simp [decodeFrom, hh]
  have hst : stateAfter .Verbatim (w ++ tail) = .EscapeSeen ∨
      ∃ h, stateAfter .Verbatim (w ++ tail) = .EscapeDigit1 h := by
    rw [stateAfter_append, hstate]
    rcases htail with ht | ⟨h, hh, ht⟩
    · rw [ht]
      exact Or.inl (by simp [stateAfter])
    · rw [ht]
      exact Or.inr ⟨h, by simp [stateAfter, hh]⟩
  obtain ⟨d1, r1, h1, -, -, hp1⟩ := drain_value content ok src hsrc d (w ++ tail) after
    sizes hwf hok (fun b hb => by
      rcases List.mem_append.mp hb with hb | hb
      · exact hw b hb
      · exact htail38 b hb) (by omega) hpend
  rw [hdec] at h1
  exact ⟨hst, d1, r1, h1, hp1⟩

/-- C6. A malformed escape passes through literally: when the raw value is `w`, then `%`
and a byte `b` that is no hex digit and not `&` (or `%`, a hex digit `h` and such a
`b`), then `z`, where `w` leaves the decoder in the state `Verbatim` (so that the `%`
starts an escape), draining a new value reader gives the decoding of `w`, then the two
bytes `%` `b` (or the three bytes `%` `h` `b`) unchanged, then the decoding of `z` from
the state `Verbatim`. The byte `b` may be `+`, which stays `+`, or `%`, which is
emitted literally and starts no escape (the value `%%+` gives `%%` and a space). -/
theorem malformed_escape_literal {σ : Type} (content : σ → List Nat) (ok : σ → Prop)
    (src : Source σ) (d : Decoder σ) (w esc z after sizes : List Nat) (b : Nat)
    (hsrc : Delivers src content ok) (hwf : d.WF) (hok : ok d.source)
    (hw : ∀ c ∈ w, c ≠ 38) (hz : ∀ c ∈ z, c ≠ 38)
    (hstate : stateAfter .Verbatim w = .Verbatim)
    (hb : ¬ hexDigit b) (hb38 : b ≠ 38)
    (hesc : esc = [37, b] ∨ ∃ h, hexDigit h ∧ esc = [37, h, b])
    (hpend : (d.pending content = w ++ esc ++ z ∧ after = []) ∨
      d.pending content = (w ++ esc ++ z) ++ 38 :: after)
    (hpos : ∀ s ∈ sizes, 0 < s) (hcalls : (w ++ esc ++ z).length < sizes.length) :
    ∃ d1 r1, drain src sizes d newValueReader
        = .ok { data := urlDecode w ++ esc ++ urlDecode z, eof := true, d := d1,
                r := r1 } := by
  have hlen := length_le_sum sizes hpos
  have hesc38 : ∀ c ∈ esc, c ≠ 38 := by
    rcases hesc with ht | ⟨h, hh, ht⟩
    · rw [ht]
      intro c hc
      simp only [List.mem_cons, List.mem_singleton, List.not_mem_nil, or_false] at hc
      rcases hc with hc | hc <;> omega
    · rw [ht]
      intro c hc
      simp only [List.mem_cons, List.mem_singleton, List.not_mem_nil, or_false] at hc
      unfold hexDigit at hh
      rcases hc with hc | hc | hc <;> omega
  have hdec : urlDecode (w ++ esc ++ z) = urlDecode w ++ esc ++ urlDecode z := by
    unfold urlDecode
    rw [List.append_assoc, decodeFrom_append w (esc ++ z) .Verbatim hstate,
      List.append_assoc]
    congr 1
    rcases hesc with ht | ⟨h, hh, ht⟩
    · rw [ht]
      simp [decodeFrom, hb]
    · rw [ht]
      simp [decodeFrom, hh, hb]
  obtain ⟨d1, r1, h1, -⟩ := drain_value content ok src hsrc d (w ++ esc ++ z) after
    sizes hwf hok (fun c hc => by
      rcases List.mem_append.mp hc with hc | hc
      · rcases List.mem_append.mp hc with hc | hc
        · exact hw c hc
        · exact hesc38 c hc
      · exact hz c hc) (by omega) hpend
  rw [hdec] at h1
  exact ⟨d1, r1, h1⟩

/-- C7. Draining does not depend on the sizes of the destinations: for every source,
decoder and reader, when one `Read` into a destination of `n` bytes returns `io.EOF`
after `res.n` bytes, then draining by `Read` calls with destinations of any positive
sizes (more calls than `res.n`) gives the same bytes in the same order, and leaves the
decoder and the reader in the same state. -/
theorem drain_any_sizes {σ : Type} (src : Source σ) (d : Decoder σ) (r : valueReader)
    (n : Nat) (res : ReadResult σ) (sizes : List Nat)
    (hone : valueReader.Read src d r (List.replicate n 0) = .ok res)
    (heof : res.err = some .EOF)
    (hpos : ∀ s ∈ sizes, 0 < s) (hcalls : res.n < sizes.length) :
    drain src sizes d r
      = .ok { data := res.p.take res.n, eof := true, d := res.d, r := res.r } := by
  have hlen := length_le_sum sizes hpos
  rw [Read_pull] at hone
  cases hp : pull src n d r with
  | error e => simp [hp] at hone
  | ok v =>
    simp only [hp, Except.ok.injEq] at hone
    subst hone
    simp only [] at heof hcalls ⊢
    have hv : v.eof = true := by
      by_contra hne
      simp [hne] at heof
    rw [drain_pull, pull_short src n sizes.sum d r v hp hv (by omega), List.take_left]
    cases v
    simp_all

/-- C8. A value decodes the same however its bytes are split across fetches: for every
input `k=v` (the key without `=` and `&` and shorter than 1024 bytes, the value without
`&`) whose key and `=` come with the first fetch, and every split of the other bytes
into fetches that are not empty, draining the value gives the decoding of `v`, which
is also what it gives when the whole input is one fetch. -/
theorem split_fetches (k v0 : List Nat) (chunks : List (List Nat)) (sizes : List Nat)
    (hk : ∀ b ∈ k, b ≠ 61 ∧ b ≠ 38) (hklen : k.length < 1024)
    (hchunks : ∀ c ∈ chunks, c ≠ [])
    (hv : ∀ b ∈ v0 ++ chunks.flatten, b ≠ 38)
    (hpos : ∀ s ∈ sizes, 0 < s) (hcalls : (v0 ++ chunks.flatten).length < sizes.length) :
    ∃ d1 d2 r2 e1 e2 s2,
      (NewDecoder ((k ++ 61 :: v0) :: chunks)).NextPair chunked
        = .ok { key := k, value := some newValueReader, err := none, d := d1 } ∧
      drain chunked sizes d1 newValueReader
        = .ok { data := urlDecode (v0 ++ chunks.flatten), eof := true, d := d2,
                r := r2 } ∧
      (NewDecoder [k ++ 61 :: (v0 ++ chunks.flatten)]).NextPair chunked
        = .ok { key := k, value := some newValueReader, err := none, d := e1 } ∧
      drain chunked sizes e1 newValueReader
        = .ok { data := urlDecode (v0 ++ chunks.flatten), eof := true, d := e2,
                r := s2 } := by
  have hlen := length_le_sum sizes hpos
  have hk2 : ∀ b ∈ k, b ≠ 38 ∧ b ≠ 61 := fun b hb => ⟨(hk b hb).2, (hk b hb).1⟩
  obtain ⟨d1, h1, hwf1, hok1, hp1⟩ := NextPair_chunked k v0 chunks hk2 hklen hchunks
  obtain ⟨d2, r2, h2, -⟩ := drain_value List.flatten (fun s => ∀ c ∈ s, c ≠ []) chunked
    chunked_delivers d1 (v0 ++ chunks.flatten) [] sizes hwf1 hok1 hv (by omega)
    (Or.inl ⟨hp1, rfl⟩)
  obtain ⟨e1, h3, hwf3, hok3, hp3⟩ := NextPair_chunked k (v0 ++ chunks.flatten) [] hk2
    hklen (by simp)
  simp only [List.flatten_nil, List.append_nil] at hp3
  obtain ⟨e2, s2, h4, -⟩ := drain_value List.flatten (fun s => ∀ c ∈ s, c ≠ []) chunked
    chunked_delivers e1 (v0 ++ chunks.flatten) [] sizes hwf3 hok3 hv (by omega)
    (Or.inl ⟨hp3, rfl⟩)
  exact ⟨d1, d2, r2, e1, e2, s2, h1, h2, h3, h4⟩

/-- C9. Key too long: for every source and decoder, when the refill at the start of
`NextPair` leaves the window full (1024 bytes, the capacity) without `=` and `&` in it,
`NextPair` returns the key-too-long error, an empty key and no value reader. -/
theorem key_too_long {σ : Type} (src : Source σ) (d d1 : Decoder σ) (e : Option Error)
    (hf : d.fill src = .ok (d1, e)) (hfull : d1.buffer.length = 1024)
    (hcap : d1.cap = 1024) (hk : ∀ b ∈ d1.buffer, b ≠ 61 ∧ b ≠ 38) :
    ∃ d2, d.NextPair src
      = .ok { key := [], value := none, err := some .keyTooLong, d := d2 } := by
  have h := NextPair_end src d d1 e hf
    (by intro hnil; rw [hnil] at hfull; simp at hfull)
    (fun b hb => ⟨(hk b hb).2, (hk b hb).1⟩)
  rw [if_neg (by omega)] at h
  exact ⟨_, h⟩

/-- C10. Bare keys have empty values: for every list of keys `k1..kn` that are not
empty, contain no `=` and no `&` and are shorter than 1024 bytes, reading `n` pairs from
an in-memory buffer that holds `k1&...&kn` (for one key: the key alone), each value
drained before the next `NextPair`, gives the pairs `(ki, empty value)` in order
without error; the next `NextPair` returns no pair and `io.EOF`. -/
theorem bare_keys (ks : List (List Nat)) (sizes : List Nat)
    (hks : ∀ k ∈ ks, k ≠ [] ∧ (∀ b ∈ k, b ≠ 61 ∧ b ≠ 38) ∧ k.length < 1024)
    (hpos : ∀ s ∈ sizes, 0 < s) (hcalls : 0 < sizes.length) :
    ∃ d1 d2, readPairs bytesBuffer sizes ks.length (NewDecoder (encodeKeys ks))
        = .ok { pairs := ks.map (fun k => (k, [])), err := none, d := d1 } ∧
      d1.NextPair bytesBuffer
        = .ok { key := [], value := none, err := some .EOF, d := d2 } := by
  have hlen := length_le_sum sizes hpos
  obtain ⟨d1, h1, hwf1, hp1⟩ := readPairs_keys sizes (by omega) ks
    (NewDecoder (encodeKeys ks)) (NewDecoder_WF _) (NewDecoder_pending id _)
    (fun k hk => ⟨fun b hb => ⟨((hks k hk).2.1 b hb).2, ((hks k hk).2.1 b hb).1⟩,
      (hks k hk).2.2, (hks k hk).1⟩)
  obtain ⟨d2, h2⟩ := NextPair_bytes_done d1 hwf1 hp1
  exact ⟨d1, d2, h1, h2⟩

/-- C1 at the input `foo=bar&baz=qux` of the test `TestMany`, drained byte by byte. -/
theorem pairs_in_order_witness :
    ∃ d1 d2, readPairs bytesBuffer [1, 1, 1, 1] 2
        (NewDecoder [102, 111, 111, 61, 98, 97, 114, 38, 98, 97, 122, 61, 113, 117, 120])
        = .ok { pairs := [([102, 111, 111], [98, 97, 114]), ([98, 97, 122], [113, 117, 120])],
                err := none, d := d1 } ∧
      d1.NextPair bytesBuffer
        = .ok { key := [], value := none, err := some .EOF, d := d2 } :=
  pairs_in_order [([102, 111, 111], [98, 97, 114]), ([98, 97, 122], [113, 117, 120])]
    [1, 1, 1, 1] (by decide) (by decide) (by decide) (by decide)

/-- C2 at the bytes `0x00 0xaa 0xff`, encoded as `a=%00%aa%ff`. -/
theorem round_trip_witness :
    ∃ d1 d2 r2,
      (NewDecoder [97, 61, 37, 48, 48, 37, 97, 97, 37, 102, 102]).NextPair bytesBuffer
        = .ok { key := [97], value := some newValueReader, err := none, d := d1 } ∧
      drain bytesBuffer [1, 1, 1, 1] d1 newValueReader
        = .ok { data := [0, 170, 255], eof := true, d := d2, r := r2 } :=
  round_trip [0, 170, 255] [1, 1, 1, 1] (by decide) (by decide) (by decide)

/-- C3 at the digits `a` and `A`: `%aA` is the byte `0xaa`. -/
theorem escape_decodes_witness :
    ∃ r1 r2 r3, newValueReader.step.call newValueReader 37 [0] 0 = .ok (r1, [0], 0) ∧
      r1.step.call r1 97 [0] 0 = .ok (r2, [0], 0) ∧
      r2.step.call r2 65 [0] 0 = .ok (r3, [170], 1) ∧
      r3.step = .defaultStep ∧ r3.outputBuffer = [] ∧ r3.eof = false :=
  escape_decodes newValueReader [0] 0 97 65 (by decide) rfl (by decide) (by decide)

/-- C4 at the value `b+r` of the input `f=b+r`, after `NextPair` has consumed `f=`. -/
theorem plain_value_witness :
    ∃ d1 r1,
      drain bytesBuffer [1, 1, 1, 1]
          { source := [], buffer := [102, 61, 98, 43, 114], cap := 1024, offset := 2 }
          newValueReader
        = .ok { data := [98, 32, 114], eof := true, d := d1, r := r1 } ∧
      ((∀ b ∈ [98, 43, 114], b ≠ 43) →
        drain bytesBuffer [1, 1, 1, 1]
            { source := [], buffer := [102, 61, 98, 43, 114], cap := 1024, offset := 2 }
            newValueReader
          = .ok { data := [98, 43, 114], eof := true, d := d1, r := r1 }) :=
  plain_value id (fun _ => True) bytesBuffer
    { source := [], buffer := [102, 61, 98, 43, 114], cap := 1024, offset := 2 }
    [98, 43, 114] [] [1, 1, 1, 1] bytesBuffer_delivers
    ⟨by decide, by decide, rfl⟩ trivial (by decide) (Or.inl ⟨rfl, rfl⟩) (by decide)
    (by decide)

/-- C5 at the value `b%a` of the input `f=b%a&x`: the value is `b%a` and `x` is left. -/
theorem trailing_escape_flushed_witness :
    (stateAfter .Verbatim [98, 37, 97] = .EscapeSeen ∨
      ∃ h, stateAfter .Verbatim [98, 37, 97] = .EscapeDigit1 h) ∧
    ∃ d1 r1,
      drain bytesBuffer [1, 1, 1, 1]
          { source := [], buffer := [102, 61, 98, 37, 97, 38, 120], cap := 1024,
            offset := 2 }
          newValueReader
        = .ok { data := [98, 37, 97], eof := true, d := d1, r := r1 } ∧
      d1.pending id = [120] :=
  trailing_escape_flushed id (fun _ => True) bytesBuffer
    { source := [], buffer := [102, 61, 98, 37, 97, 38, 120], cap := 1024, offset := 2 }
    [98] [37, 97] [120] [1, 1, 1, 1] bytesBuffer_delivers
    ⟨by decide, by decide, rfl⟩ trivial (by decide) (by decide)
    (Or.inr ⟨97, by decide, rfl⟩) (Or.inr rfl) (by decide) (by decide)

/-- C6 at the value `%+a` of the input `f=%+a`: the `+` after `%` stays a `+`. -/
theorem malformed_escape_literal_witness :
    ∃ d1 r1,
      drain bytesBuffer [1, 1, 1, 1]
          { source := [], buffer := [102, 61, 37, 43, 97], cap := 1024, offset := 2 }
          newValueReader
        = .ok { data := [37, 43, 97], eof := true, d := d1, r := r1 } :=
  malformed_escape_literal id (fun _ => True) bytesBuffer
    { source := [], buffer := [102, 61, 37, 43, 97], cap := 1024, offset := 2 }
    [] [37, 43] [97] [] [1, 1, 1, 1] 43 bytesBuffer_delivers
    ⟨by decide, by decide, rfl⟩ trivial (by decide) (by decide) (by decide) (by decide)
    (by decide) (Or.inl rfl) (Or.inl ⟨rfl, rfl⟩) (by decide) (by decide)

/-- C7 at the value `b+r` of the input `f=b+r`: one `Read` into eight bytes, and four
into one byte each. -/
theorem drain_any_sizes_witness :
    drain bytesBuffer [1, 1, 1, 1]
        { source := [], buffer := [102, 61, 98, 43, 114], cap := 1024, offset := 2 }
        newValueReader
      = .ok { data := [98, 32, 114], eof := true,
              d := { source := [], buffer := [], cap := 1024, offset := 0 },
              r := { eof := true, memory := ⟨0, 0, 0⟩, outputBuffer := [],
                     step := .defaultStep, flush := false } } :=
  drain_any_sizes bytesBuffer
    { source := [], buffer := [102, 61, 98, 43, 114], cap := 1024, offset := 2 }
    newValueReader 8
    { n := 3, err := some .EOF, p := [98, 32, 114, 0, 0, 0, 0, 0],
      d := { source := [], buffer := [], cap := 1024, offset := 0 },
      r := { eof := true, memory := ⟨0, 0, 0⟩, outputBuffer := [],
             step := .defaultStep, flush := false } }
    [1, 1, 1, 1] (by rfl) rfl (by decide) (by decide)

/-- C8 at the input `f=b%41`, with `f=b%`, `4` and `1` in three fetches. -/
theorem split_fetches_witness :
    ∃ d1 d2 r2 e1 e2 s2,
      (NewDecoder [[102, 61, 98, 37], [52], [49]]).NextPair chunked
        = .ok { key := [102], value := some newValueReader, err := none, d := d1 } ∧
      drain chunked [1, 1, 1, 1, 1] d1 newValueReader
        = .ok { data := [98, 65], eof := true, d := d2, r := r2 } ∧
      (NewDecoder [[102, 61, 98, 37, 52, 49]]).NextPair chunked
        = .ok { key := [102], value := some newValueReader, err := none, d := e1 } ∧
      drain chunked [1, 1, 1, 1, 1] e1 newValueReader
        = .ok { data := [98, 65], eof := true, d := e2, r := s2 } :=
  split_fetches [102] [98, 37] [[52], [49]] [1, 1, 1, 1, 1] (by decide) (by decide)
    (by decide) (by decide) (by decide) (by decide)

/-- C9 at the input of the test `TestKeyTooLong`: 1024 zero bytes. -/
theorem key_too_long_witness :
    ∃ d2, (NewDecoder (List.replicate 1024 0)).NextPair bytesBuffer
      = .ok { key := [], value := none, err := some .keyTooLong, d := d2 } :=
  key_too_long bytesBuffer (NewDecoder (List.replicate 1024 0)) _ _
    (fill_new_bytes (List.replicate 1024 0)
      (List.ne_nil_of_length_pos (by rw [List.length_replicate]; decide))
      (le_of_eq (List.length_replicate 1024 0)))
    (List.length_replicate 1024 0) rfl
    (fun b hb => by rw [List.eq_of_mem_replicate hb]; decide)

/-- C10 at the input `foo&bar&baz` of the test `TestMany`. -/
theorem bare_keys_witness :
    ∃ d1 d2, readPairs bytesBuffer [1] 3
        (NewDecoder [102, 111, 111, 38, 98, 97, 114, 38, 98, 97, 122])
        = .ok { pairs := [([102, 111, 111], []), ([98, 97, 114], []), ([98, 97, 122], [])],
                err := none, d := d1 } ∧
      d1.NextPair bytesBuffer
        = .ok { key := [], value := none, err := some .EOF, d := d2 } :=
  bare_keys [[102, 111, 111], [98, 97, 114], [98, 97, 122]] [1] (by decide) (by decide)
    (by decide)

/-- C11, amended. Keys are never decoded: for every source that returns no more bytes
than it is asked for and every decoder that satisfies the window invariant, the refill
and `NextPair` return; the refilled window is the unconsumed bytes followed by the
bytes of the one fetch; a key returned with a nil error is, byte for byte, the part of
that window before its first `=` or `&` (all of the window when it holds neither), so
a `+` or a `%XX` in it is returned as it is; a window that is not empty and has fewer
than 1024 bytes before its first `=` or `&` gives a key, a value reader and a nil
error. When the refilled window holds the first 1024 bytes of an input `inp` that is
not empty (the source delivered all that fits) and fewer than 1024 bytes precede the
first `=` or `&` of `inp`, the key is exactly the bytes of `inp` that precede its
first `=` or `&`. -/
theorem key_is_raw {σ : Type} (src : Source σ) (d : Decoder σ)
    (hfits : ∀ t n, (src.Read t n).data.length ≤ n) (hwf : d.WF) :
    ∃ d1 e res, d.fill src = .ok (d1, e) ∧
      d1.buffer = d.buffer.drop d.offset
        ++ (src.Read d.source (d.cap - (d.buffer.length - d.offset))).data ∧
      d.NextPair src = .ok res ∧
      (res.err = none → res.key = d1.buffer.takeWhile keyByte) ∧
      (d1.buffer ≠ [] → (d1.buffer.takeWhile keyByte).length < 1024 →
        res.err = none ∧ res.value = some newValueReader) ∧
      (∀ inp : List Nat, inp ≠ [] → d1.buffer = inp.take 1024 →
        (inp.takeWhile keyByte).length < 1024 →
        res.err = none ∧ res.value = some newValueReader ∧
          res.key = inp.takeWhile keyByte) := by
  have hf := fill_eq src d hwf.1 hwf.2.1
    (hfits d.source (d.cap - (d.buffer.length - d.offset)))
  have hcap : d.cap = 1024 := hwf.2.2
  obtain ⟨res, hnp, hkey, hsome⟩ := NextPair_window_key src d _ _ hf
  simp only [hcap] at hkey hsome
  refine ⟨_, _, res, hf, rfl, hnp, ?_, ?_, ?_⟩
  · simpa only [hcap] using hkey
  · simpa only [hcap] using hsome
  · intro inp hne hbuf hlen
    simp only [hcap] at hbuf
    have htw := takeWhile_take keyByte inp 1024 hlen
    have hne1 : inp.take 1024 ≠ [] := by
      cases inp with
      | nil => exact absurd rfl hne
      | cons a l => simp
    rw [hbuf] at hkey hsome
    rw [htw] at hkey hsome
    obtain ⟨h1, h2⟩ := hsome hne1 hlen
    exact ⟨h1, h2, hkey h1⟩

/-- C11 as it is stated fails for a source that delivers `a+` with its first fetch and
`b=c` with its second: the bytes of the input `a+b=c` before its first `=` are `a+b`,
and `NextPair` returns the key `a+`, with a value reader and a nil error. -/
theorem key_is_raw_counterexample :
    (NewDecoder [[97, 43], [98, 61, 99]]).NextPair chunked
        = .ok { key := [97, 43], value := some newValueReader, err := none,
                d := { source := [[98, 61, 99]], buffer := [97, 43], cap := 1024,
                       offset := 2 } } ∧
      ([97, 43] ++ [98, 61, 99]).takeWhile keyByte = [97, 43, 98] ∧
      [97, 43] ≠ [97, 43, 98] := by
  refine ⟨by rfl, by decide, by decide⟩

/-- C11 at the input `a+%41=b` in an in-memory buffer: the key is `a+%41`. -/
theorem key_is_raw_witness :
    ∃ res, (NewDecoder [97, 43, 37, 52, 49, 61, 98]).NextPair bytesBuffer = .ok res ∧
      res.err = none ∧ res.value = some newValueReader ∧
      res.key = [97, 43, 37, 52, 49] := by
  obtain ⟨d1, e, res, -, hbuf, hnp, -, -, hinp⟩ :=
    key_is_raw bytesBuffer (NewDecoder [97, 43, 37, 52, 49, 61, 98])
      (fun t n => bytesBuffer_delivers.fits t n trivial) (NewDecoder_WF _)
  obtain ⟨h1, h2, h3⟩ := hinp [97, 43, 37, 52, 49, 61, 98] (by decide)
    (hbuf.trans (by rfl)) (by decide)
  exact ⟨res, hnp, h1, h2, h3.trans (by decide)⟩

/-- C12 fails on the code. The source delivers `a=b` and then fails with an error other
than `io.EOF`, without bytes. `NextPair` returns the key `a`; `Read` on the value
stores `b`, refills, drops the error that `fill` returns, takes the empty window for
the end of the value and returns `io.EOF`, not the error of the source. -/
theorem read_drops_source_error :
    (NewDecoder [([97, 61, 98], none), ([], some (Error.other 1))]).NextPair scripted
      = .ok { key := [97], value := some newValueReader, err := none,
              d := { source := [([], some (Error.other 1))], buffer := [97, 61, 98],
                     cap := 1024, offset := 2 } } ∧
    valueReader.Read scripted
        { source := [([], some (Error.other 1))], buffer := [97, 61, 98], cap := 1024,
          offset := 2 }
        newValueReader [0, 0, 0, 0]
      = .ok { n := 1, err := some .EOF, p := [98, 0, 0, 0],
              d := { source := [], buffer := [], cap := 1024, offset := 0 },
              r := { eof := true, memory := ⟨0, 0, 0⟩, outputBuffer := [],
                     step := .defaultStep, flush := false } } := by
  constructor <;> rfl

/-- C13. End of stream: for every source and decoder, when the window is empty after the
refill at the start of `NextPair`, `NextPair` returns an empty key, no value reader and
exactly the error the refill got from the source; when the decoder satisfies the window
invariant and the source delivers a finite stream (so the source is exhausted), that
error is `io.EOF`. -/
theorem end_of_stream {σ : Type} (src : Source σ) (d d1 : Decoder σ) (e : Option Error)
    (hf : d.fill src = .ok (d1, e)) (hb : d1.buffer = []) :
    d.NextPair src = .ok { key := [], value := none, err := e, d := d1 } ∧
      ∀ (content : σ → List Nat) (ok : σ → Prop), Delivers src content ok → d.WF →
        ok d.source → e = some .EOF :=
  ⟨NextPair_empty src d d1 e hf hb, fun content ok hsrc hwf hok =>
    fill_empty_eof content ok src hsrc d d1 e hwf hok hf hb⟩

/-- C13 at the empty input of the test `TestBasic`. -/
theorem end_of_stream_witness :
    (NewDecoder ([] : List Nat)).NextPair bytesBuffer
        = .ok { key := [], value := none, err := some .EOF,
                d := { source := [], buffer := [], cap := 1024, offset := 0 } } ∧
      ∀ (content : List Nat → List Nat) (ok : List Nat → Prop),
        Delivers bytesBuffer content ok → (NewDecoder ([] : List Nat)).WF →
        ok (NewDecoder ([] : List Nat)).source → some Error.EOF = some .EOF :=
  end_of_stream bytesBuffer (NewDecoder []) { source := [], buffer := [], cap := 1024, offset := 0 }
    (some .EOF) rfl rfl

/-- C14 fails on the code. A source that returns no bytes and a nil error (which an
`io.Reader` may do) leaves the window of a new decoder empty, and `NextPair` returns the
nil error of the source together with an empty key and no value reader. -/
theorem nextPair_nil_error_no_reader :
    (NewDecoder [(([] : List Nat), (none : Option Error))]).NextPair scripted
      = .ok { key := [], value := none, err := none,
              d := { source := [], buffer := [], cap := 1024, offset := 0 } } := by
  rfl

/-- C15. `&` ends a value in every state: for every source, decoder and reader that is
not at the end of its value, in any of the three states, when the next unconsumed byte
of the window is `&`, draining gives only the bytes that were in the output buffer (the
`&` is not among them), consumes exactly the `&` (the offset is one more), sets `eof`
and leaves the step function and the escape memory as they were; draining again gives
nothing and consumes nothing, so the bytes after the `&` are untouched. -/
theorem amp_ends_value {σ : Type} (src : Source σ) (d : Decoder σ) (r : valueReader)
    (sizes again : List Nat) (hin : d.buffer[d.offset]? = some 38) (he : r.eof = false)
    (hsum : r.outputBuffer.length < sizes.sum) (hagain : 0 < again.sum) :
    drain src sizes d r
      = .ok { data := r.outputBuffer, eof := true,
              d := { d with offset := d.offset + 1 },
              r := { r with eof := true, outputBuffer := [] } } ∧
    drain src again { d with offset := d.offset + 1 }
        { r with eof := true, outputBuffer := [] }
      = .ok { data := [], eof := true, d := { d with offset := d.offset + 1 },
              r := { r with eof := true, outputBuffer := [] } } := by
  constructor
  · rw [drain_pull]
    exact pull_amp src d hin r.outputBuffer r sizes.sum he rfl hsum
  · rw [drain_pull, pull_eof src _ again.sum { r with eof := true, outputBuffer := [] } rfl]
    simp [hagain]

/-- C15 at the input `f=%&x` after `f=%` is consumed: the reader is in the state after
`%`, the value is `%`, and the cursor is on `x` afterwards. -/
theorem amp_ends_value_witness :
    drain bytesBuffer [1, 1]
        { source := [], buffer := [102, 61, 37, 38, 120], cap := 1024, offset := 3 }
        { eof := false, memory := ⟨37, 0, 0⟩, outputBuffer := [37], step := .escape,
          flush := false }
      = .ok { data := [37], eof := true,
              d := { source := [], buffer := [102, 61, 37, 38, 120], cap := 1024,
                     offset := 4 },
              r := { eof := true, memory := ⟨37, 0, 0⟩, outputBuffer := [],
                     step := .escape, flush := false } } ∧
    drain bytesBuffer [1]
        { source := [], buffer := [102, 61, 37, 38, 120], cap := 1024, offset := 4 }
        { eof := true, memory := ⟨37, 0, 0⟩, outputBuffer := [], step := .escape,
          flush := false }
      = .ok { data := [], eof := true,
              d := { source := [], buffer := [102, 61, 37, 38, 120], cap := 1024,
                     offset := 4 },
              r := { eof := true, memory := ⟨37, 0, 0⟩, outputBuffer := [],
                     step := .escape, flush := false } } :=
  amp_ends_value bytesBuffer
    { source := [], buffer := [102, 61, 37, 38, 120], cap := 1024, offset := 3 }
    { eof := false, memory := ⟨37, 0, 0⟩, outputBuffer := [37], step := .escape,
      flush := false }
    [1, 1] [1] rfl rfl (by decide) (by decide)

/-- C16. The capacity of the window bounds the length of a key: for every source and
every decoder that satisfies the window invariant, a key that `NextPair` returns with
a nil error is shorter than 1024 bytes. -/
theorem key_shorter_than_window {σ : Type} (src : Source σ) (d : Decoder σ)
    (res : PairResult σ) (hwf : d.WF) (h : d.NextPair src = .ok res)
    (herr : res.err = none) : res.key.length < 1024 := by
  rcases NextPair_key_bound src d res h herr with hk | ⟨hk, -⟩
  · rw [hwf.2.2] at hk
    exact hk
  · rw [hk]
    decide

/-- C16 at the input `f=b`. -/
theorem key_shorter_than_window_witness : [102].length < 1024 :=
  key_shorter_than_window bytesBuffer (NewDecoder [102, 61, 98])
    { key := [102], value := some newValueReader, err := none,
      d := { source := [], buffer := [102, 61, 98], cap := 1024, offset := 2 } }
    (NewDecoder_WF _) rfl rfl

/-- C17. The window invariant `0 ≤ offset ≤ len(buffer) ≤ cap(buffer) = 1024` holds for a
new decoder, and for every source that returns no more bytes than it is asked for and
every decoder that satisfies it, `fill`, `NextPair` and `Read` (with any reader state
and any destination) return and leave a decoder that satisfies it. -/
theorem window_invariant {σ : Type} (src : Source σ) (s : σ) (d : Decoder σ)
    (r : valueReader) (p : List Nat) (hfits : ∀ t n, (src.Read t n).data.length ≤ n)
    (hwf : d.WF) :
    (NewDecoder s).WF ∧
      (∃ d1 e, d.fill src = .ok (d1, e) ∧ d1.WF) ∧
      (∃ res, d.NextPair src = .ok res ∧ res.d.WF) ∧
      (∃ res, valueReader.Read src d r p = .ok res ∧ res.d.WF) := by
  refine ⟨NewDecoder_WF s, fill_safe src hfits d hwf, NextPair_safe src hfits d hwf, ?_⟩
  obtain ⟨res, h, h1, -⟩ := Read_safe src hfits d r p hwf
  exact ⟨res, h, h1⟩

/-- C17 at an in-memory buffer and the decoder after `NextPair` on `f=b`. -/
theorem window_invariant_witness :
    (NewDecoder [120]).WF ∧
      (∃ d1 e, Decoder.fill bytesBuffer
        { source := [], buffer := [102, 61, 98], cap := 1024, offset := 2 }
          = .ok (d1, e) ∧ d1.WF) ∧
      (∃ res, Decoder.NextPair bytesBuffer
        { source := [], buffer := [102, 61, 98], cap := 1024, offset := 2 }
          = .ok res ∧ res.d.WF) ∧
      (∃ res, valueReader.Read bytesBuffer
        { source := [], buffer := [102, 61, 98], cap := 1024, offset := 2 }
        newValueReader [0, 0] = .ok res ∧ res.d.WF) :=
  window_invariant bytesBuffer [120]
    { source := [], buffer := [102, 61, 98], cap := 1024, offset := 2 }
    newValueReader [0, 0] (fun t n => bytesBuffer_delivers.fits t n trivial)
    ⟨by decide, by decide, rfl⟩

/-- C18. Refill loses nothing: for every decoder that satisfies the window invariant and
every result of the fetch that fits the destination it was handed (the free part of
the window after the move), `fill` returns; afterwards the offset is zero and the
window holds exactly the bytes that were not consumed, in their order, followed by the
bytes of the fetch; the error of the source is returned unchanged. -/
theorem refill_keeps_unread {σ : Type} (src : Source σ) (d : Decoder σ) (hwf : d.WF)
    (hfit : (src.Read d.source (d.cap - (d.buffer.length - d.offset))).data.length
      ≤ d.cap - (d.buffer.length - d.offset)) :
    d.fill src = .ok
      ({ source := (src.Read d.source (d.cap - (d.buffer.length - d.offset))).next,
         buffer := d.buffer.drop d.offset
           ++ (src.Read d.source (d.cap - (d.buffer.length - d.offset))).data,
         cap := d.cap, offset := 0 },
       (src.Read d.source (d.cap - (d.buffer.length - d.offset))).err) :=
  fill_eq src d hwf.1 hwf.2.1 hfit

/-- C18 at a window `f=b` with `f=` consumed and a fetch that brings `x` with a
failure. -/
theorem refill_keeps_unread_witness :
    Decoder.fill scripted
        { source := [([120], some (Error.other 1))], buffer := [102, 61, 98], cap := 1024,
          offset := 2 }
      = .ok ({ source := [], buffer := [98, 120], cap := 1024, offset := 0 },
             some (Error.other 1)) :=
  refill_keeps_unread scripted
    { source := [([120], some (Error.other 1))], buffer := [102, 61, 98], cap := 1024,
      offset := 2 }
    ⟨by decide, by decide, rfl⟩ (by decide)

/-- C19. Short reads end a key early: a source that delivers `fo` with its first fetch
and `o=bar` with its second makes the first `NextPair` return the key `fo` with a value
reader and no error, not the key `foo`, and draining that value reader gives `o=bar`,
not `bar`. -/
theorem short_read_cuts_key :
    (NewDecoder [[102, 111], [111, 61, 98, 97, 114]]).NextPair chunked
      = .ok { key := [102, 111], value := some newValueReader, err := none,
              d := { source := [[111, 61, 98, 97, 114]], buffer := [102, 111],
                     cap := 1024, offset := 2 } } ∧
    drain chunked [8]
        { source := [[111, 61, 98, 97, 114]], buffer := [102, 111], cap := 1024,
          offset := 2 }
        newValueReader
      = .ok { data := [111, 61, 98, 97, 114], eof := true,
              d := { source := [], buffer := [], cap := 1024, offset := 0 },
              r := { eof := true, memory := ⟨0, 0, 0⟩, outputBuffer := [],
                     step := .defaultStep, flush := false } } := by
  constructor <;> rfl

/-- C20. Every `Read` returns: for every decoder that satisfies the window invariant,
every reader state, every destination and every source that returns no more bytes than
it is asked for (it may return none, and it need never report the end of the data),
`Read` returns within its budget of `9 * len(p) + 9` turns of the loop, without a
panic for an index or a slice out of bounds, a count that is at most `len(p)`, and the
destination keeps its length. -/
theorem read_returns {σ : Type} (src : Source σ) (d : Decoder σ) (r : valueReader)
    (p : List Nat) (hfits : ∀ t n, (src.Read t n).data.length ≤ n) (hwf : d.WF) :
    ∃ res, valueReader.Read src d r p = .ok res ∧ res.n ≤ p.length ∧
      res.p.length = p.length := by
  obtain ⟨res, h, -, h2, h3, -⟩ := Read_safe src hfits d r p hwf
  exact ⟨res, h, h2, h3⟩

/-- C20 at a reader state that no run reaches (the step after `%x` with a first digit
that is none) and a source that is used up. -/
theorem read_returns_witness :
    ∃ res, valueReader.Read bytesBuffer
        { source := [], buffer := [102, 61, 65], cap := 1024, offset := 2 }
        { eof := false, memory := ⟨0, 0, 0⟩, outputBuffer := [7, 7, 7, 7], step := .escape1,
          flush := false }
        [0, 0] = .ok res ∧ res.n ≤ [0, 0].length ∧ res.p.length = [0, 0].length :=
  read_returns bytesBuffer
    { source := [], buffer := [102, 61, 65], cap := 1024, offset := 2 }
    { eof := false, memory := ⟨0, 0, 0⟩, outputBuffer := [7, 7, 7, 7], step := .escape1,
      flush := false }
    [0, 0] (fun t n => bytesBuffer_delivers.fits t n trivial) ⟨by decide, by decide, rfl⟩

end urldecode
